import Mathlib

/-!
# Verification of the adaptive pretty-repr layout engine (`rich/pretty.py`)

Shallow embedding of the core layout algorithm of `src/rich/pretty.py`:
the `_Line` accumulator, the `_BRACES` container-descriptor table, the
`to_repr_text` leaf formatter with its identity cache, the recursive
`traverse` walk with its width-enforcing `append_text` and the
`MaxLineReached` abort signal, and the expand-and-retry loop of
`pretty_repr`.

Modelling conventions:
* Python objects are named by their identity (`id(node)`, a `Nat`).  A
  configuration carries a finite heap `List (Nat × PyObj)` describing the
  objects that exist; an id that is not in the heap is an opaque leaf.
* The external display-width function `cell_len` is modelled as the
  character count of the fragment (all test strings are ASCII).
* `repr(node)` is modelled by an external function `reprF : Nat → RepResult`
  which either yields a repr string or fails with a message; the
  `try/except` of `to_repr_text` turns a failure into the diagnostic
  placeholder string.
* The `MaxLineReached` exception is an `Except` error value carrying the
  nesting level and the state at the moment of the raise (the mutated
  `line_break` survives the raise in the source, because it is assigned
  before `raise`).
* Recursion is fuelled: `run` consumes one unit of fuel per internal step.
  All universal theorems hold for every fuel value; the packaged entry
  point `prettyLines` supplies an ample fuel derived from the heap.
* The out-of-scope collaborators (syntax highlighting, `Text` styling,
  console integration, the debug `print`) are not part of the model; the
  output is the `"\n"`-joined text of the accumulated lines.
-/

namespace RichPretty

/-- Display width of a text fragment (`cells.cell_len`), modelled as the
character count. -/
def cellLen (s : String) : Nat := s.length

/-- A line in a pretty repr (`_Line` in pretty.py): an ordered list of text
fragments plus the incrementally maintained width counter `_cell_len`. -/
structure _Line where
  parts : List String
  _cell_len : Nat
deriving Repr, DecidableEq

/-- A fresh empty line (`_Line()`). -/
def emptyLine : _Line := ⟨[], 0⟩

/-- `text.endswith(" ")`: the text ends with a (single) space, i.e. its
last character is a space. -/
def endsWithSpace (s : String) : Bool := decide (s.data.getLast? = some ' ')

/-- `_Line.append`: add text to the line, keeping track of cell length. -/
def _Line.append (l : _Line) (text : String) : _Line :=
  { parts := l.parts ++ [text], _cell_len := l._cell_len + cellLen text }

/-- `_Line.cell_len` property: the effective width.  The source returns
`self._cell_len` when the fragment list is non-empty and its last fragment
does not end in a space, and `self._cell_len - 1` otherwise (Python's `-`
may go to `-1` on an empty line, hence the result is an `Int`). -/
def _Line.cell_len (l : _Line) : Int :=
  match l.parts.getLast? with
  | some p => if ¬ endsWithSpace p then (l._cell_len : Int) else (l._cell_len : Int) - 1
  | none => (l._cell_len : Int) - 1

/-- `_Line.text`: the text of the line as a whole. -/
def _Line.text (l : _Line) : String := String.join l.parts

/-- Decidable equality of traversal results, so that concrete runs can be
checked by `decide`. -/
instance {ε α : Type} [DecidableEq ε] [DecidableEq α] : DecidableEq (Except ε α) :=
  fun a b =>
    match a, b with
    | .ok x, .ok y => decidable_of_iff (x = y) (by simp)
    | .error x, .error y => decidable_of_iff (x = y) (by simp)
    | .ok _, .error _ => isFalse (by simp)
    | .error _, .ok _ => isFalse (by simp)

/-- Outcome of calling Python `repr(node)`: a repr string, or an exception
with a message. -/
inductive RepResult where
  | ok (s : String)
  | err (msg : String)
deriving Repr, DecidableEq

/-- The exact Python type of an object.  `pySub b n` is a subclass (named
`n`) of the type `b`; `pyOther n` is any other type.  Exact-type dispatch
(`type(node) in _CONTAINERS`) distinguishes a subclass from its base. -/
inductive PyType where
  | pyDict
  | pyList
  | pySet
  | pyFrozenset
  | pyTuple
  | pySub (base : PyType) (name : String)
  | pyOther (name : String)
deriving Repr, DecidableEq

/-- The five recognised container kinds (the keys of `_BRACES`). -/
inductive ContKind where
  | kDict
  | kFrozenset
  | kList
  | kSet
  | kTuple
deriving Repr, DecidableEq

/-- Structural data of an object: sequence entries (ids), mapping entries
(key id, value id), or no structure (an atom). -/
inductive ObjData where
  | items (xs : List Nat)
  | mapping (xs : List (Nat × Nat))
  | atom
deriving Repr, DecidableEq

/-- A Python object: its exact type and its structural data. -/
structure PyObj where
  ty : PyType
  data : ObjData
deriving Repr, DecidableEq

/-- `_BRACES`: open token, close token, empty token for each container
kind. -/
def _BRACES : ContKind → String × String × String
  | .kDict => ("\x7b", "\x7d", "\x7b\x7d")
  | .kFrozenset => ("frozenset(\x7b", "\x7d)", "frozenset()")
  | .kList => ("[", "]", "[]")
  | .kSet => ("\x7b", "\x7d", "set()")
  | .kTuple => ("(", ")", "tuple()")

/-- `type(node) in _CONTAINERS`, with the matched kind: only the five exact
types are containers; a subclass (`pySub`) or any other type is not. -/
def typeContainerKind : PyType → Option ContKind
  | .pyDict => some .kDict
  | .pyFrozenset => some .kFrozenset
  | .pyList => some .kList
  | .pySet => some .kSet
  | .pyTuple => some .kTuple
  | .pySub _ _ => none
  | .pyOther _ => none

/-- Configuration of one call: the object heap, the external `repr`
function, `max_width`, `indent_size`, and the current `expand_level`. -/
structure Cfg where
  heap : List (Nat × PyObj)
  reprF : Nat → RepResult
  max_width : Option Nat
  indent_size : Nat
  expand_level : Nat

/-- The container view of an object: `some (kind, data)` when the id names
a heap object whose exact type is a recognised container kind, `none`
otherwise (unknown id, or a non-container / subclass / duck-typed object,
which `traverse` treats as a leaf). -/
def asContainer (cfg : Cfg) (node : Nat) : Option (ContKind × ObjData) :=
  match cfg.heap.lookup node with
  | some obj =>
    match typeContainerKind obj.ty with
    | some k => some (k, obj.data)
    | none => none
  | none => none

/-- The sequence entries used for a non-dict container (empty on a data
shape that cannot arise for a well-formed heap). -/
def getItems : ObjData → List Nat
  | .items xs => xs
  | _ => []

/-- The mapping entries used for a dict container. -/
def getMapping : ObjData → List (Nat × Nat)
  | .mapping xs => xs
  | _ => []

/-- The mutable state threaded through one call of `pretty_repr`:
the accumulated `lines`, the `visited_set` of ids on the current path, the
`repr_cache`, and the `line_break` watermark.  `rlog` is write-only
instrumentation: it records, in order, the ids whose repr was actually
computed (i.e. the cache misses), so that the caching property can be
stated; no other definition reads it. -/
structure RState where
  lines : List _Line
  visited : List Nat
  cache : List (Nat × String)
  line_break : Option Nat
  rlog : List Nat
deriving Repr, DecidableEq

/-- The state at the start of a top-level call. -/
def initState : RState :=
  { lines := [emptyLine], visited := [], cache := [], line_break := none, rlog := [] }

/-- Apply `f` to the last element of a list (`lines[-1]` mutation). -/
def updateLast (f : _Line → _Line) : List _Line → List _Line
  | [] => []
  | [l] => [f l]
  | l :: ls => l :: updateLast f ls

/-- The current line `lines[-1]`. -/
def lastLine (ls : List _Line) : _Line := ls.getLast?.getD emptyLine

/-- `" " * n`. -/
def spaces (n : Nat) : String := String.mk (List.replicate n ' ')

/-- The repr string the leaf formatter produces for an id: the repr itself,
or — when `repr` raises — the diagnostic placeholder built by the
`except` clause of `to_repr_text`. -/
def reprStr (reprF : Nat → RepResult) (node : Nat) : String :=
  match reprF node with
  | .ok s => s
  | .err m => "<error in repr: " ++ m ++ ">"

/-- `to_repr_text`: convert object to repr, memoised by object identity.
On a cache miss the repr is computed (`reprStr` plays the `try/except`)
and stored; the miss is recorded in `rlog`. -/
def to_repr_text (reprF : Nat → RepResult) (st : RState) (node : Nat) :
    String × RState :=
  match st.cache.lookup node with
  | some cached => (cached, st)
  | none =>
    let repr_text := reprStr reprF node
    (repr_text,
      { st with cache := (node, repr_text) :: st.cache, rlog := st.rlog ++ [node] })

/-- `append_text` (the closure inside `traverse`): append text to the
current line; then, if a width budget is present and the effective width
exceeds it, either silently keep the overflow (when a `line_break` from an
earlier attempt is recorded and the current line count has not passed it)
or record the new `line_break` and raise `MaxLineReached(level)`. -/
def append_text (W : Option Nat) (level : Nat) (st : RState) (text : String) :
    Except (Nat × RState) RState :=
  let lines := updateLast (fun l => l.append text) st.lines
  let st1 : RState := { st with lines := lines }
  match W with
  | none => .ok st1
  | some w =>
    if (lastLine lines).cell_len > (w : Int) then
      match st1.line_break with
      | some lb =>
        if lines.length ≤ lb then .ok st1
        else .error (level, { st1 with line_break := some lines.length })
      | none => .error (level, { st1 with line_break := some lines.length })
    else .ok st1

/-- `lines.append(_Line())`: start a new (current) line. -/
def newLine (st : RState) : RState := { st with lines := st.lines ++ [emptyLine] }

/-- The pending work of the recursive walk: visit a node, or run the
entry loop of `traverse` over the remaining sequence / mapping entries
(`expanded` is the `level < expand_level` flag of the enclosing
container, `level` the enclosing container's level). -/
inductive Job where
  | jnode (node level : Nat)
  | jitems (level : Nat) (expanded : Bool) (entries : List Nat)
  | jmap (level : Nat) (expanded : Bool) (entries : List (Nat × Nat))
deriving Repr, DecidableEq

/-- One fuelled step function implementing `traverse` of pretty.py.
`jnode` is the body of `traverse(node, level)`; `jitems` / `jmap` are its
`for last, value in loop_last(...)` entry loops, with the
`if expanded: append Line; indent` prefix, the recursive visit, and the
trailing `", "` after every non-last entry.  Out of fuel returns the state
unchanged (all theorems either hold for every fuel or supply ample fuel). -/
def run (cfg : Cfg) : Nat → Job → RState → Except (Nat × RState) RState
  | 0, _, st => .ok st
  | fuel + 1, .jnode node level, st =>
    if st.visited.contains node then
      append_text cfg.max_width level st "..."
    else
      match asContainer cfg node with
      | some (k, data) =>
        if (if k = .kDict then (getMapping data).isEmpty else (getItems data).isEmpty) then
          do
            let st1 ← append_text cfg.max_width level
              { st with visited := node :: st.visited } (_BRACES k).2.2
            .ok { st1 with visited := st1.visited.erase node }
        else do
          let st1 ← append_text cfg.max_width level
            { st with visited := node :: st.visited } (_BRACES k).1
          let st2 ←
            if k = .kDict then
              run cfg fuel (.jmap level (decide (level < cfg.expand_level))
                (getMapping data)) st1
            else
              run cfg fuel (.jitems level (decide (level < cfg.expand_level))
                (getItems data)) st1
          let st3 ←
            if decide (level < cfg.expand_level) = true then
              append_text cfg.max_width level (newLine st2)
                (spaces (cfg.indent_size * level) ++ (_BRACES k).2.1)
            else
              append_text cfg.max_width level st2 (_BRACES k).2.1
          .ok { st3 with visited := st3.visited.erase node }
      | none =>
        do
          let st1 ← append_text cfg.max_width level
            (to_repr_text cfg.reprF { st with visited := node :: st.visited } node).2
            (to_repr_text cfg.reprF { st with visited := node :: st.visited } node).1
          .ok { st1 with visited := st1.visited.erase node }
  | _ + 1, .jitems _ _ [], st => .ok st
  | fuel + 1, .jitems level expanded [value], st => do
    let st ←
      if expanded then
        append_text cfg.max_width level (newLine st)
          (spaces (cfg.indent_size * (level + 1)))
      else .ok st
    run cfg fuel (.jnode value (level + 1)) st
  | fuel + 1, .jitems level expanded (value :: rest), st => do
    let st ←
      if expanded then
        append_text cfg.max_width level (newLine st)
          (spaces (cfg.indent_size * (level + 1)))
      else .ok st
    let st ← run cfg fuel (.jnode value (level + 1)) st
    let st ← append_text cfg.max_width level st ", "
    run cfg fuel (.jitems level expanded rest) st
  | _ + 1, .jmap _ _ [], st => .ok st
  | fuel + 1, .jmap level expanded [(key, value)], st => do
    let st ←
      if expanded then
        append_text cfg.max_width level (newLine st)
          (spaces (cfg.indent_size * (level + 1)))
      else .ok st
    let rt := to_repr_text cfg.reprF st key
    let st ← append_text cfg.max_width level rt.2 rt.1
    let st ← append_text cfg.max_width level st ": "
    run cfg fuel (.jnode value (level + 1)) st
  | fuel + 1, .jmap level expanded ((key, value) :: rest), st => do
    let st ←
      if expanded then
        append_text cfg.max_width level (newLine st)
          (spaces (cfg.indent_size * (level + 1)))
      else .ok st
    let rt := to_repr_text cfg.reprF st key
    let st ← append_text cfg.max_width level rt.2 rt.1
    let st ← append_text cfg.max_width level st ": "
    let st ← run cfg fuel (.jnode value (level + 1)) st
    let st ← append_text cfg.max_width level st ", "
    run cfg fuel (.jmap level expanded rest) st

/-- `traverse(node, level)` with the given fuel. -/
def traverse (cfg : Cfg) (fuel node level : Nat) (st : RState) :
    Except (Nat × RState) RState :=
  run cfg fuel (.jnode node level) st

/-- Ample fuel for a heap: every concrete example in this file is checked
by evaluation, which consumes only the steps it needs. -/
def runFuel (cfg : Cfg) : Nat := 2 ^ (cfg.heap.length + 4)

/-- The `while True` retry loop of `pretty_repr`: attempt a traversal; on
success the accumulated lines (with the final expand level and state) are
the result; on `MaxLineReached` discard the lines and the visited set —
but keep the repr cache and the `line_break` — bump `expand_level`, and
retry. -/
def reprLoop (cfg : Cfg) (root : Nat) :
    Nat → Nat → RState → Option (List _Line × Nat × RState)
  | 0, _, _ => none
  | fuel + 1, expand_level, st =>
    match run { cfg with expand_level := expand_level } (runFuel cfg)
        (.jnode root 0) st with
    | .ok st1 => some (st1.lines, expand_level, st1)
    | .error (_, st1) =>
      reprLoop cfg root fuel (expand_level + 1)
        { lines := [emptyLine], visited := [], cache := st1.cache,
          line_break := st1.line_break, rlog := st1.rlog }

/-- `pretty_repr` up to the final join: the accumulated lines, the final
expansion level, and the final state.  The retry loop starts at
`expand_level = 0` with a clean state; `cfg.expand_level` is ignored. -/
def prettyLines (cfg : Cfg) (root : Nat) : Option (List _Line × Nat × RState) :=
  reprLoop cfg root (runFuel cfg) 0 initState

/-- The text `pretty_repr` returns: `"\n".join(line.text for line in lines)`
(the external highlighter does not alter content or line breaks). -/
def pretty_text (cfg : Cfg) (root : Nat) : Option String :=
  (prettyLines cfg root).map fun r => String.intercalate "\n" (r.1.map _Line.text)

/-! ## Derived notions used to state the claims -/

/-- The layout the traversal produces at a fixed expansion level when no
width budget is enforced (used to state "some expansion level yields a
fitting layout"). -/
def layoutAt (cfg : Cfg) (root : Nat) (e : Nat) : List _Line :=
  match run { cfg with max_width := none, expand_level := e } (runFuel cfg)
      (.jnode root 0) initState with
  | .ok st => st.lines
  | .error _ => []

/-- Maximum nesting depth of the value tree below an id (fuelled; an empty
container still nests one level). -/
def depthOf (cfg : Cfg) : Nat → Nat → Nat
  | 0, _ => 0
  | fuel + 1, node =>
    match asContainer cfg node with
    | some (k, data) =>
      let cs := if k = .kDict then (getMapping data).map Prod.snd else getItems data
      1 + cs.foldl (fun a c => max a (depthOf cfg fuel c)) 0
    | none => 0

/-- The numeric value of the `line_break` watermark (`None` counts as 0,
i.e. nothing is exempt from the overflow abort). -/
def lbVal : Option Nat → Nat := fun o => o.getD 0

/-- Every line at (0-based) position `≥ lb` has effective width within the
budget `w`. -/
def fitsFrom (w lb : Nat) (ls : List _Line) : Prop :=
  ∀ l ∈ ls.drop lb, l.cell_len ≤ (w : Int)

instance (w lb : Nat) (ls : List _Line) : Decidable (fitsFrom w lb ls) :=
  inferInstanceAs (Decidable (∀ l ∈ ls.drop lb, l.cell_len ≤ (w : Int)))

/-- The text of each accumulated line. -/
def lineTexts (ls : List _Line) : List String := ls.map _Line.text

/-- Append a string to the text of the last line. -/
def textApp : List String → String → List String
  | [], _ => []
  | [t], s => [t ++ s]
  | t :: ts, s => t :: textApp ts s

/-- Every cache entry holds the string the leaf formatter would produce
for that id. -/
def cacheOK (reprF : Nat → RepResult) (c : List (Nat × String)) : Prop :=
  ∀ p ∈ c, p.2 = reprStr reprF p.1

/-- A job whose pending entry loops are in inline (non-expanded) mode. -/
def jobInline : Job → Prop
  | .jnode _ _ => True
  | .jitems _ ex _ => ex = false
  | .jmap _ ex _ => ex = false

/-- Modelled from the spec (§8 P1, §4.1 *Inline* layout): the single-line
inline rendering of the tree — entries rendered in order on one line,
separated by `", "`, containers bracketed by their kind's tokens (their
empty token when empty), mapping keys leaf-formatted and joined to their
value with `": "`, and an ellipsis placeholder where the id is already on
the visited path.  Defined over the same fuelled job shape as `run` so the
two can be compared step by step. -/
def inlineRender (cfg : Cfg) : Nat → Job → List Nat → String
  | 0, _, _ => ""
  | fuel + 1, .jnode node level, visited =>
    if visited.contains node then "..."
    else
      match asContainer cfg node with
      | some (k, data) =>
        if (if k = .kDict then (getMapping data).isEmpty else (getItems data).isEmpty) then
          (_BRACES k).2.2
        else
          (_BRACES k).1 ++
            (if k = .kDict then
              inlineRender cfg fuel (.jmap level false (getMapping data)) (node :: visited)
            else
              inlineRender cfg fuel (.jitems level false (getItems data)) (node :: visited)) ++
            (_BRACES k).2.1
      | none => reprStr cfg.reprF node
  | _ + 1, .jitems _ _ [], _ => ""
  | fuel + 1, .jitems lvl ex [v], visited => inlineRender cfg fuel (.jnode v (lvl + 1)) visited
  | fuel + 1, .jitems lvl ex (v :: rest), visited =>
    inlineRender cfg fuel (.jnode v (lvl + 1)) visited ++ ", " ++
      inlineRender cfg fuel (.jitems lvl ex rest) visited
  | _ + 1, .jmap _ _ [], _ => ""
  | fuel + 1, .jmap lvl ex [(key, value)], visited =>
    reprStr cfg.reprF key ++ ": " ++ inlineRender cfg fuel (.jnode value (lvl + 1)) visited
  | fuel + 1, .jmap lvl ex ((key, value) :: rest), visited =>
    reprStr cfg.reprF key ++ ": " ++ inlineRender cfg fuel (.jnode value (lvl + 1)) visited ++
      ", " ++ inlineRender cfg fuel (.jmap lvl ex rest) visited

/-- Replace the object stored under an id (keeps the heap's length and all
other ids' bindings). -/
def replaceHeap (H : List (Nat × PyObj)) (n : Nat) (o : PyObj) : List (Nat × PyObj) :=
  H.map fun p => if p.1 = n then (n, o) else p

/-- A line built by a sequence of `_Line.append` calls on a fresh line. -/
def applyAppends (ts : List String) : _Line := ts.foldl _Line.append emptyLine

/-- The state carried by either result of a traversal step. -/
def resState : Except (Nat × RState) RState → RState
  | .ok st => st
  | .error (_, st) => st

/-! ## Concrete scenarios -/

/-- The self-referential list `L = [1]; L.append(L)`: id 0 is the list
`[id 1, id 0]`, id 1 is the int leaf `1`. -/
def cfgCycle : Cfg :=
  { heap := [(0, ⟨.pyList, .items [1, 0]⟩)],
    reprF := fun n => if n = 1 then .ok "1" else .ok "?",
    max_width := some 80, indent_size := 4, expand_level := 0 }

/-- `[[[x, y]], frozenset({set(), []})]` where the leaf `y` has the repr
`"xxxxxxx "` (a custom repr ending in a space), at width 20, indent 4:
the fully expanded layout (level 3) fits, but the retry loop stops at
level 2 with an over-budget line retained by the overflow hysteresis. -/
def cfgWide : Cfg :=
  { heap := [(0, ⟨.pyList, .items [1, 2]⟩),
             (1, ⟨.pyList, .items [3]⟩),
             (3, ⟨.pyList, .items [4, 5]⟩),
             (2, ⟨.pyFrozenset, .items [6, 7]⟩),
             (6, ⟨.pySet, .items []⟩),
             (7, ⟨.pyList, .items []⟩)],
    reprF := fun n =>
      if n = 4 then .ok "x" else if n = 5 then .ok "xxxxxxx " else .ok "?",
    max_width := some 20, indent_size := 4, expand_level := 0 }

/-- A depth-1 list of three 12-character leaves at width 5. -/
def cfgThree : Cfg :=
  { heap := [(0, ⟨.pyList, .items [1, 2, 3]⟩)],
    reprF := fun n =>
      if n = 1 then .ok "aaaaaaaaaaaa" else
      if n = 2 then .ok "bbbbbbbbbbbb" else
      if n = 3 then .ok "cccccccccccc" else .ok "?",
    max_width := some 5, indent_size := 4, expand_level := 0 }

/-- A single 12-character leaf at width 5 (nothing can ever fit). -/
def cfgLong : Cfg :=
  { heap := [],
    reprF := fun _ => .ok "xxxxxxxxxxxx",
    max_width := some 5, indent_size := 4, expand_level := 0 }

/-- A two-entry dict (keys `a`, `b`, values `1`, `2`) at width 5, indent 4
(scenario 3 of the spec, with unquoted key reprs). -/
def cfgPairs : Cfg :=
  { heap := [(0, ⟨.pyDict, .mapping [(1, 2), (3, 4)]⟩)],
    reprF := fun n =>
      if n = 1 then .ok "a" else if n = 2 then .ok "1" else
      if n = 3 then .ok "b" else if n = 4 then .ok "2" else .ok "?",
    max_width := some 5, indent_size := 4, expand_level := 0 }

/-- A dict whose single value's repr raises `ZeroDivisionError` (scenario
5 of the spec). -/
def cfgBroken : Cfg :=
  { heap := [(0, ⟨.pyDict, .mapping [(1, 2)]⟩)],
    reprF := fun n =>
      if n = 1 then .ok "Broken" else
      if n = 2 then .err "division by zero" else .ok "?",
    max_width := some 80, indent_size := 4, expand_level := 0 }

/-- A list `[m, x]` whose first element `m` is an instance of a *subclass*
of `list` (structurally a sequence, with entry data present in the heap):
exact-kind classification must treat it as a leaf. -/
def cfgSub : Cfg :=
  { heap := [(0, ⟨.pyList, .items [1, 2]⟩),
             (1, ⟨.pySub .pyList "MyList", .items [3]⟩)],
    reprF := fun n =>
      if n = 1 then .ok "MyList([3])" else
      if n = 2 then .ok "x" else .ok "IGNORED",
    max_width := some 80, indent_size := 4, expand_level := 0 }

/-- A single-entry root list whose one element is a two-entry nested list
of 12-character leaves, at width 5: the retry loop ends at an expansion
level of at least 2, so the *nested* container (not the root, whose
single-entry loop appends no separator) is rendered expanded. -/
def cfgNest : Cfg :=
  { heap := [(0, ⟨.pyList, .items [1]⟩),
             (1, ⟨.pyList, .items [2, 3]⟩)],
    reprF := fun n =>
      if n = 2 then .ok "aaaaaaaaaaaa" else
      if n = 3 then .ok "bbbbbbbbbbbb" else .ok "?",
    max_width := some 5, indent_size := 4, expand_level := 0 }

/-- The two-entry dict of `cfgPairs` with no width budget at all
(`max_width=None`). -/
def cfgNoW : Cfg := { cfgPairs with max_width := none }

/-! ## Basic lemmas -/

@[simp]
theorem ok_bind {ε α β : Type} (a : α) (f : α → Except ε β) :
    (Except.ok a >>= f) = f a := rfl

@[simp]
theorem error_bind {ε α β : Type} (x : ε) (f : α → Except ε β) :
    ((Except.error x : Except ε α) >>= f) = .error x := rfl

theorem updateLast_length (f : _Line → _Line) (ls : List _Line) :
    (updateLast f ls).length = ls.length := by
  induction ls with
  | nil => rfl
  | cons a ls ih =>
    cases ls with
    | nil => rfl
    | cons b ls => simpa [updateLast] using ih

theorem updateLast_cons_cons (f : _Line → _Line) (a b : _Line) (ls : List _Line) :
    ∃ c cs, updateLast f (b :: ls) = c :: cs ∧
      updateLast f (a :: b :: ls) = a :: c :: cs := by
  cases ls with
  | nil => exact ⟨f b, [], rfl, rfl⟩
  | cons d ds => exact ⟨b, updateLast f (d :: ds), rfl, rfl⟩

theorem dropLast_updateLast (f : _Line → _Line) (ls : List _Line) :
    (updateLast f ls).dropLast = ls.dropLast := by
  induction ls with
  | nil => rfl
  | cons a ls ih =>
    cases ls with
    | nil => rfl
    | cons b ls =>
      obtain ⟨c, cs, h1, h2⟩ := updateLast_cons_cons f a b ls
      rw [h2, List.dropLast_cons₂, ← h1, ih, List.dropLast_cons₂]

theorem getLast?_updateLast (f : _Line → _Line) (ls : List _Line) :
    (updateLast f ls).getLast? = ls.getLast?.map f := by
  induction ls with
  | nil => rfl
  | cons a ls ih =>
    cases ls with
    | nil => rfl
    | cons b ls =>
      obtain ⟨c, cs, h1, h2⟩ := updateLast_cons_cons f a b ls
      rw [h2, List.getLast?_cons_cons, ← h1, ih, List.getLast?_cons_cons]

theorem drop_updateLast (f : _Line → _Line) (ls : List _Line) (n : Nat) :
    (updateLast f ls).drop n = updateLast f (ls.drop n) := by
  induction ls generalizing n with
  | nil => simp [updateLast]
  | cons a ls ih =>
    cases n with
    | zero => simp
    | succ m =>
      cases ls with
      | nil => simp [updateLast]
      | cons b t =>
        obtain ⟨c, cs, h1, h2⟩ := updateLast_cons_cons f a b t
        rw [h2, List.drop_succ_cons, ← h1, ih, List.drop_succ_cons]

theorem mem_updateLast {f : _Line → _Line} {ls : List _Line} {l : _Line}
    (h : l ∈ updateLast f ls) :
    l ∈ ls.dropLast ∨ ∃ x, ls.getLast? = some x ∧ l = f x := by
  induction ls with
  | nil => simp [updateLast] at h
  | cons a ls ih =>
    cases ls with
    | nil =>
      simp only [updateLast, List.mem_singleton] at h
      exact Or.inr ⟨a, rfl, h⟩
    | cons b t =>
      obtain ⟨c, cs, h1, h2⟩ := updateLast_cons_cons f a b t
      rw [h2] at h
      rcases List.mem_cons.mp h with h | h
      · subst h
        left
        rw [List.dropLast_cons₂]
        exact List.mem_cons_self _ _
      · rw [← h1] at h
        rcases ih h with h | ⟨x, hx1, hx2⟩
        · left
          rw [List.dropLast_cons₂]
          exact List.mem_cons_of_mem _ h
        · right
          exact ⟨x, by rw [List.getLast?_cons_cons]; exact hx1, hx2⟩

theorem line_text_append (l : _Line) (t : String) :
    (l.append t).text = l.text ++ t := by
  simp [_Line.text, _Line.append, String.join]

theorem lineTexts_updateLast (t : String) (ls : List _Line) :
    lineTexts (updateLast (fun l => l.append t) ls) = textApp (lineTexts ls) t := by
  induction ls with
  | nil => rfl
  | cons a ls ih =>
    cases ls with
    | nil => simp [updateLast, lineTexts, textApp, line_text_append]
    | cons b s =>
      obtain ⟨c, cs, h1, h2⟩ := updateLast_cons_cons (fun l => l.append t) a b s
      rw [h2]
      simp only [lineTexts, List.map_cons] at ih ⊢
      rw [← List.map_cons, ← h1, ih]
      rfl

theorem textApp_ne_nil {ts : List String} (h : ts ≠ []) (s : String) : textApp ts s ≠ [] := by
  cases ts with
  | nil => exact absurd rfl h
  | cons t ts => cases ts <;> simp [textApp]

theorem textApp_cons (t : String) {ts : List String} (h : ts ≠ []) (s : String) :
    textApp (t :: ts) s = t :: textApp ts s := by
  cases ts with
  | nil => exact absurd rfl h
  | cons u us => rfl

theorem textApp_textApp (ts : List String) (a b : String) :
    textApp (textApp ts a) b = textApp ts (a ++ b) := by
  induction ts with
  | nil => rfl
  | cons t ts ih =>
    cases ts with
    | nil => simp [textApp, String.append_assoc]
    | cons u us =>
      rw [textApp_cons t (by simp) a, textApp_cons t (textApp_ne_nil (by simp) a) b, ih,
        textApp_cons t (by simp) (a ++ b)]

theorem textApp_empty (ts : List String) : textApp ts "" = ts := by
  induction ts with
  | nil => rfl
  | cons t ts ih =>
    cases ts with
    | nil => simp [textApp]
    | cons u us => simpa [textApp] using ih

theorem lineTexts_ne_nil {ls : List _Line} (h : ls ≠ []) : lineTexts ls ≠ [] := by
  cases ls <;> simp_all [lineTexts]

theorem updateLast_ne_nil {f : _Line → _Line} {ls : List _Line} (h : ls ≠ []) :
    updateLast f ls ≠ [] := by
  intro hc
  have := congrArg List.length hc
  simp [updateLast_length] at this
  exact h this

/-! ## Characterisation of `append_text` -/

theorem append_text_ok_inv {W : Option Nat} {lvl : Nat} {st : RState} {t : String}
    {st1 : RState} (h : append_text W lvl st t = .ok st1) :
    st1 = { st with lines := updateLast (fun l => l.append t) st.lines } := by
  revert h
  unfold append_text
  cases W with
  | none => intro h; exact (Except.ok.injEq .. ▸ h).symm ▸ rfl
  | some w =>
    simp only []
    split
    · cases hlb : st.line_break with
      | none => intro h; cases h
      | some lb =>
        simp only [hlb]
        split
        · intro h; cases h; rfl
        · intro h; cases h
    · intro h; cases h; rfl

theorem append_text_error_inv {W : Option Nat} {lvl : Nat} {st : RState} {t : String}
    {l : Nat} {st1 : RState} (h : append_text W lvl st t = .error (l, st1)) :
    l = lvl ∧
    st1 = { st with lines := updateLast (fun ln => ln.append t) st.lines,
                    line_break := some (updateLast (fun ln => ln.append t) st.lines).length } ∧
    ∃ w, W = some w ∧ (w : Int) < (lastLine st1.lines).cell_len ∧
      ∀ lb, st.line_break = some lb → lb < st1.lines.length := by
  revert h
  unfold append_text
  cases W with
  | none => intro h; cases h
  | some w =>
    simp only []
    split
    · rename_i hover
      cases hlb : st.line_break with
      | none =>
        intro h
        cases h
        refine ⟨rfl, rfl, w, rfl, by simpa using hover, ?_⟩
        intro lb hlb2
        cases hlb2
      | some lb =>
        simp only [hlb]
        split
        · intro h; cases h
        · rename_i hgt
          intro h
          cases h
          refine ⟨rfl, rfl, w, rfl, by simpa using hover, ?_⟩
          intro lb2 hlb2
          cases hlb2
          show lb < (updateLast (fun ln => ln.append t) st.lines).length
          omega
    · intro h; cases h

theorem append_text_ok_over {w lvl : Nat} {st : RState} {t : String} {st1 : RState}
    (h : append_text (some w) lvl st t = .ok st1)
    (hover : (w : Int) < (lastLine st1.lines).cell_len) :
    ∃ lb, st.line_break = some lb ∧ st1.lines.length ≤ lb := by
  have hst1 := append_text_ok_inv h
  revert h
  unfold append_text
  simp only []
  split
  · cases hlb : st.line_break with
    | none => intro h; cases h
    | some lb =>
      simp only [hlb]
      split
      · rename_i hle
        intro h
        cases h
        exact ⟨lb, rfl, by simpa [hst1] using hle⟩
      · intro h; cases h
  · rename_i hnover
    intro h
    cases h
    rw [hst1] at hover
    simp at hover hnover
    omega


/-! ## Master preservation lemma for `run` -/

/-- Any state property preserved by the five primitive state operations of
the traversal (successful `append_text`, starting a new line, the leaf
formatter, pushing onto and erasing from the visited set) is preserved by
every successful traversal step. -/
theorem run_ok_preserves (cfg : Cfg) (P : RState → Prop)
    (hApp : ∀ lvl st t st1, append_text cfg.max_width lvl st t = .ok st1 → P st → P st1)
    (hNew : ∀ st, P st → P (newLine st))
    (hRepr : ∀ st n, P st → P (to_repr_text cfg.reprF st n).2)
    (hVis : ∀ st n, P st → P { st with visited := n :: st.visited })
    (hErase : ∀ st n, P st → P { st with visited := st.visited.erase n }) :
    ∀ fuel job st st1, run cfg fuel job st = .ok st1 → P st → P st1 := by
  intro fuel
  induction fuel with
  | zero =>
    intro job st st1 h hP
    simp only [run] at h
    cases h
    exact hP
  | succ fuel ih =>
    intro job st st1 h hP
    cases job with
    | jnode node level =>
      simp only [run] at h
      cases hv : st.visited.contains node with
      | true =>
        rw [hv] at h
        simp only [if_true] at h
        exact hApp _ _ _ _ h hP
      | false =>
        rw [hv] at h
        simp only [Bool.false_eq_true, if_false] at h
        have hP1 := hVis st node hP
        cases hac : asContainer cfg node with
        | none =>
          rw [hac] at h
          simp only [] at h
          cases hap : append_text cfg.max_width level
              (to_repr_text cfg.reprF { st with visited := node :: st.visited } node).2
              (to_repr_text cfg.reprF { st with visited := node :: st.visited } node).1 with
          | error e => rw [hap] at h; cases h
          | ok st2 =>
            rw [hap] at h
            simp only [ok_bind] at h
            cases h
            exact hErase _ _ (hApp _ _ _ _ hap (hRepr _ _ hP1))
        | some kd =>
          obtain ⟨k, data⟩ := kd
          rw [hac] at h
          simp only [] at h
          cases hemp : (if k = .kDict then (getMapping data).isEmpty
              else (getItems data).isEmpty) with
          | true =>
            rw [hemp] at h
            simp only [if_true] at h
            cases hap : append_text cfg.max_width level
                { st with visited := node :: st.visited } (_BRACES k).2.2 with
            | error e => rw [hap] at h; cases h
            | ok st2 =>
              rw [hap] at h
              simp only [ok_bind] at h
              cases h
              exact hErase _ _ (hApp _ _ _ _ hap hP1)
          | false =>
            rw [hemp] at h
            simp only [Bool.false_eq_true, if_false] at h
            cases hap : append_text cfg.max_width level
                { st with visited := node :: st.visited } (_BRACES k).1 with
            | error e => rw [hap] at h; cases h
            | ok st2 =>
              rw [hap] at h
              simp only [ok_bind] at h
              have hP2 := hApp _ _ _ _ hap hP1
              by_cases hk : k = ContKind.kDict
              · rw [if_pos hk] at h
                cases hrun : run cfg fuel
                    (.jmap level (decide (level < cfg.expand_level)) (getMapping data)) st2 with
                | error e => rw [hrun] at h; cases h
                | ok st3 =>
                  rw [hrun] at h
                  simp only [ok_bind] at h
                  have hP3 : P st3 := ih _ _ _ hrun hP2
                  by_cases he : decide (level < cfg.expand_level) = true
                  · rw [if_pos he] at h
                    cases hcl : append_text cfg.max_width level (newLine st3)
                        (spaces (cfg.indent_size * level) ++ (_BRACES k).2.1) with
                    | error e => rw [hcl] at h; cases h
                    | ok st4 =>
                      rw [hcl] at h
                      simp only [ok_bind] at h
                      cases h
                      exact hErase _ _ (hApp _ _ _ _ hcl (hNew _ hP3))
                  · rw [if_neg he] at h
                    cases hcl : append_text cfg.max_width level st3 (_BRACES k).2.1 with
                    | error e => rw [hcl] at h; cases h
                    | ok st4 =>
                      rw [hcl] at h
                      simp only [ok_bind] at h
                      cases h
                      exact hErase _ _ (hApp _ _ _ _ hcl hP3)
              · rw [if_neg hk] at h
                cases hrun : run cfg fuel
                    (.jitems level (decide (level < cfg.expand_level)) (getItems data)) st2 with
                | error e => rw [hrun] at h; cases h
                | ok st3 =>
                  rw [hrun] at h
                  simp only [ok_bind] at h
                  have hP3 : P st3 := ih _ _ _ hrun hP2
                  by_cases he : decide (level < cfg.expand_level) = true
                  · rw [if_pos he] at h
                    cases hcl : append_text cfg.max_width level (newLine st3)
                        (spaces (cfg.indent_size * level) ++ (_BRACES k).2.1) with
                    | error e => rw [hcl] at h; cases h
                    | ok st4 =>
                      rw [hcl] at h
                      simp only [ok_bind] at h
                      cases h
                      exact hErase _ _ (hApp _ _ _ _ hcl (hNew _ hP3))
                  · rw [if_neg he] at h
                    cases hcl : append_text cfg.max_width level st3 (_BRACES k).2.1 with
                    | error e => rw [hcl] at h; cases h
                    | ok st4 =>
                      rw [hcl] at h
                      simp only [ok_bind] at h
                      cases h
                      exact hErase _ _ (hApp _ _ _ _ hcl hP3)
    | jitems level ex entries =>
      cases entries with
      | nil =>
        simp only [run] at h
        cases h
        exact hP
      | cons v rest =>
        cases rest with
        | nil =>
          simp only [run] at h
          by_cases hex : ex = true
          · rw [if_pos hex] at h
            cases hpre : append_text cfg.max_width level (newLine st)
                (spaces (cfg.indent_size * (level + 1))) with
            | error e => rw [hpre] at h; cases h
            | ok st2 =>
              rw [hpre] at h
              simp only [ok_bind] at h
              exact ih _ _ _ h (hApp _ _ _ _ hpre (hNew _ hP))
          · rw [if_neg hex] at h
            simp only [ok_bind] at h
            exact ih _ _ _ h hP
        | cons u us =>
          simp only [run] at h
          have step : ∀ st2, P st2 →
              (do
                let st3 ← run cfg fuel (.jnode v (level + 1)) st2
                let st4 ← append_text cfg.max_width level st3 ", "
                run cfg fuel (.jitems level ex (u :: us)) st4) = .ok st1 → P st1 := by
            intro st2 hP2 hh
            cases hrun : run cfg fuel (.jnode v (level + 1)) st2 with
            | error e => rw [hrun] at hh; cases hh
            | ok st3 =>
              rw [hrun] at hh
              simp only [ok_bind] at hh
              have hP3 := ih _ _ _ hrun hP2
              cases hcm : append_text cfg.max_width level st3 ", " with
              | error e => rw [hcm] at hh; cases hh
              | ok st4 =>
                rw [hcm] at hh
                simp only [ok_bind] at hh
                exact ih _ _ _ hh (hApp _ _ _ _ hcm hP3)
          by_cases hex : ex = true
          · rw [if_pos hex] at h
            cases hpre : append_text cfg.max_width level (newLine st)
                (spaces (cfg.indent_size * (level + 1))) with
            | error e => rw [hpre] at h; cases h
            | ok st2 =>
              rw [hpre] at h
              simp only [ok_bind] at h
              exact step _ (hApp _ _ _ _ hpre (hNew _ hP)) h
          · rw [if_neg hex] at h
            simp only [ok_bind] at h
            exact step _ hP h
    | jmap level ex entries =>
      cases entries with
      | nil =>
        simp only [run] at h
        cases h
        exact hP
      | cons kv rest =>
        obtain ⟨key, value⟩ := kv
        cases rest with
        | nil =>
          simp only [run] at h
          have step : ∀ st2, P st2 →
              (do
                let st3 ← append_text cfg.max_width level
                  (to_repr_text cfg.reprF st2 key).2 (to_repr_text cfg.reprF st2 key).1
                let st4 ← append_text cfg.max_width level st3 ": "
                run cfg fuel (.jnode value (level + 1)) st4) = .ok st1 → P st1 := by
            intro st2 hP2 hh
            cases hky : append_text cfg.max_width level
                (to_repr_text cfg.reprF st2 key).2 (to_repr_text cfg.reprF st2 key).1 with
            | error e => rw [hky] at hh; cases hh
            | ok st3 =>
              rw [hky] at hh
              simp only [ok_bind] at hh
              have hP3 := hApp _ _ _ _ hky (hRepr _ _ hP2)
              cases hco : append_text cfg.max_width level st3 ": " with
              | error e => rw [hco] at hh; cases hh
              | ok st4 =>
                rw [hco] at hh
                simp only [ok_bind] at hh
                exact ih _ _ _ hh (hApp _ _ _ _ hco hP3)
          by_cases hex : ex = true
          · rw [if_pos hex] at h
            cases hpre : append_text cfg.max_width level (newLine st)
                (spaces (cfg.indent_size * (level + 1))) with
            | error e => rw [hpre] at h; cases h
            | ok st2 =>
              rw [hpre] at h
              simp only [ok_bind] at h
              exact step _ (hApp _ _ _ _ hpre (hNew _ hP)) h
          · rw [if_neg hex] at h
            simp only [ok_bind] at h
            exact step _ hP h
        | cons kv2 rest2 =>
          simp only [run] at h
          have step : ∀ st2, P st2 →
              (do
                let st3 ← append_text cfg.max_width level
                  (to_repr_text cfg.reprF st2 key).2 (to_repr_text cfg.reprF st2 key).1
                let st4 ← append_text cfg.max_width level st3 ": "
                let st5 ← run cfg fuel (.jnode value (level + 1)) st4
                let st6 ← append_text cfg.max_width level st5 ", "
                run cfg fuel (.jmap level ex (kv2 :: rest2)) st6) = .ok st1 → P st1 := by
            intro st2 hP2 hh
            cases hky : append_text cfg.max_width level
                (to_repr_text cfg.reprF st2 key).2 (to_repr_text cfg.reprF st2 key).1 with
            | error e => rw [hky] at hh; cases hh
            | ok st3 =>
              rw [hky] at hh
              simp only [ok_bind] at hh
              have hP3 := hApp _ _ _ _ hky (hRepr _ _ hP2)
              cases hco : append_text cfg.max_width level st3 ": " with
              | error e => rw [hco] at hh; cases hh
              | ok st4 =>
                rw [hco] at hh
                simp only [ok_bind] at hh
                have hP4 := hApp _ _ _ _ hco hP3
                cases hrun : run cfg fuel (.jnode value (level + 1)) st4 with
                | error e => rw [hrun] at hh; cases hh
                | ok st5 =>
                  rw [hrun] at hh
                  simp only [ok_bind] at hh
                  have hP5 := ih _ _ _ hrun hP4
                  cases hcm : append_text cfg.max_width level st5 ", " with
                  | error e => rw [hcm] at hh; cases hh
                  | ok st6 =>
                    rw [hcm] at hh
                    simp only [ok_bind] at hh
                    exact ih _ _ _ hh (hApp _ _ _ _ hcm hP5)
          by_cases hex : ex = true
          · rw [if_pos hex] at h
            cases hpre : append_text cfg.max_width level (newLine st)
                (spaces (cfg.indent_size * (level + 1))) with
            | error e => rw [hpre] at h; cases h
            | ok st2 =>
              rw [hpre] at h
              simp only [ok_bind] at h
              exact step _ (hApp _ _ _ _ hpre (hNew _ hP)) h
          · rw [if_neg hex] at h
            simp only [ok_bind] at h
            exact step _ hP h


/-- Any state property preserved by the primitive state operations —
including the state carried by a failing `append_text` — holds for the
state carried by either outcome of a traversal step. -/
theorem run_res_preserves (cfg : Cfg) (P : RState → Prop)
    (hApp : ∀ lvl st t, P st → P (resState (append_text cfg.max_width lvl st t)))
    (hNew : ∀ st, P st → P (newLine st))
    (hRepr : ∀ st n, P st → P (to_repr_text cfg.reprF st n).2)
    (hVis : ∀ st n, P st → P { st with visited := n :: st.visited })
    (hErase : ∀ st n, P st → P { st with visited := st.visited.erase n }) :
    ∀ fuel job st, P st → P (resState (run cfg fuel job st)) := by
  have hAppOk : ∀ lvl st t st1, append_text cfg.max_width lvl st t = .ok st1 → P st → P st1 := by
    intro lvl st t st1 h hP
    have := hApp lvl st t hP
    rw [h] at this
    exact this
  have hAppErr : ∀ lvl st t e, append_text cfg.max_width lvl st t = .error e → P st → P e.2 := by
    intro lvl st t e h hP
    have := hApp lvl st t hP
    rw [h] at this
    obtain ⟨l, st1⟩ := e
    exact this
  intro fuel
  induction fuel with
  | zero =>
    intro job st hP
    simp only [run, resState]
    exact hP
  | succ fuel ih =>
    have ihOk : ∀ job st st1, run cfg fuel job st = .ok st1 → P st → P st1 := by
      intro job st st1 h hP
      have := ih job st hP
      rw [h] at this
      exact this
    have ihErr : ∀ job st e, run cfg fuel job st = .error e → P st → P e.2 := by
      intro job st e h hP
      have := ih job st hP
      rw [h] at this
      obtain ⟨l, st1⟩ := e
      exact this
    intro job st hP
    cases job with
    | jnode node level =>
      simp only [run]
      cases hv : st.visited.contains node with
      | true =>
        simp only [if_true]
        exact hApp _ _ _ hP
      | false =>
        simp only [Bool.false_eq_true, if_false]
        have hP1 := hVis st node hP
        cases hac : asContainer cfg node with
        | none =>
          simp only []
          cases hap : append_text cfg.max_width level
              (to_repr_text cfg.reprF { st with visited := node :: st.visited } node).2
              (to_repr_text cfg.reprF { st with visited := node :: st.visited } node).1 with
          | error e =>
            simpa only [error_bind, resState] using hAppErr _ _ _ _ hap (hRepr _ _ hP1)
          | ok st2 =>
            simp only [ok_bind, resState]
            exact hErase _ _ (hAppOk _ _ _ _ hap (hRepr _ _ hP1))
        | some kd =>
          obtain ⟨k, data⟩ := kd
          simp only []
          cases hemp : (if k = .kDict then (getMapping data).isEmpty
              else (getItems data).isEmpty) with
          | true =>
            simp only [if_true]
            cases hap : append_text cfg.max_width level
                { st with visited := node :: st.visited } (_BRACES k).2.2 with
            | error e =>
              simpa only [error_bind, resState] using hAppErr _ _ _ _ hap hP1
            | ok st2 =>
              simp only [ok_bind, resState]
              exact hErase _ _ (hAppOk _ _ _ _ hap hP1)
          | false =>
            simp only [Bool.false_eq_true, if_false]
            cases hap : append_text cfg.max_width level
                { st with visited := node :: st.visited } (_BRACES k).1 with
            | error e =>
              simpa only [error_bind, resState] using hAppErr _ _ _ _ hap hP1
            | ok st2 =>
              simp only [ok_bind]
              have hP2 := hAppOk _ _ _ _ hap hP1
              have closeStep : ∀ st3, P st3 → P (resState
                  (if decide (level < cfg.expand_level) = true then
                    (append_text cfg.max_width level (newLine st3)
                        (spaces (cfg.indent_size * level) ++ (_BRACES k).2.1)) >>=
                      fun y => Except.ok { y with visited := y.visited.erase node }
                  else
                    (append_text cfg.max_width level st3 (_BRACES k).2.1) >>=
                      fun y => Except.ok { y with visited := y.visited.erase node })) := by
                intro st3 hP3
                by_cases he : decide (level < cfg.expand_level) = true
                · rw [if_pos he]
                  cases hcl : append_text cfg.max_width level (newLine st3)
                      (spaces (cfg.indent_size * level) ++ (_BRACES k).2.1) with
                  | error e =>
                    simpa only [error_bind, resState] using
                      hAppErr _ _ _ _ hcl (hNew _ hP3)
                  | ok st4 =>
                    simp only [ok_bind, resState]
                    exact hErase _ _ (hAppOk _ _ _ _ hcl (hNew _ hP3))
                · rw [if_neg he]
                  cases hcl : append_text cfg.max_width level st3 (_BRACES k).2.1 with
                  | error e =>
                    simpa only [error_bind, resState] using hAppErr _ _ _ _ hcl hP3
                  | ok st4 =>
                    simp only [ok_bind, resState]
                    exact hErase _ _ (hAppOk _ _ _ _ hcl hP3)
              by_cases hk : k = ContKind.kDict
              · rw [if_pos hk]
                cases hrun : run cfg fuel
                    (.jmap level (decide (level < cfg.expand_level)) (getMapping data)) st2 with
                | error e =>
                  simpa only [error_bind, resState] using ihErr _ _ _ hrun hP2
                | ok st3 =>
                  simp only [ok_bind]
                  exact closeStep _ (ihOk _ _ _ hrun hP2)
              · rw [if_neg hk]
                cases hrun : run cfg fuel
                    (.jitems level (decide (level < cfg.expand_level)) (getItems data)) st2 with
                | error e =>
                  simpa only [error_bind, resState] using ihErr _ _ _ hrun hP2
                | ok st3 =>
                  simp only [ok_bind]
                  exact closeStep _ (ihOk _ _ _ hrun hP2)
    | jitems level ex entries =>
      have preStep : ∀ st2 (rest : RState → Except (Nat × RState) RState),
          (∀ st3, P st3 → P (resState (rest st3))) → P st2 →
          P (resState (if ex = true then
              (append_text cfg.max_width level (newLine st2)
                (spaces (cfg.indent_size * (level + 1)))) >>= rest
            else (Except.ok st2 : Except (Nat × RState) RState) >>= rest)) := by
        intro st2 rest hRest hP2
        by_cases hex : ex = true
        · rw [if_pos hex]
          cases hpre : append_text cfg.max_width level (newLine st2)
              (spaces (cfg.indent_size * (level + 1))) with
          | error e =>
            simpa only [error_bind, resState] using hAppErr _ _ _ _ hpre (hNew _ hP2)
          | ok st3 =>
            simp only [ok_bind]
            exact hRest _ (hAppOk _ _ _ _ hpre (hNew _ hP2))
        · rw [if_neg hex]
          simp only [ok_bind]
          exact hRest _ hP2
      cases entries with
      | nil =>
        simp only [run, resState]
        exact hP
      | cons v rest =>
        cases rest with
        | nil =>
          simp only [run]
          exact preStep st (fun st3 => run cfg fuel (.jnode v (level + 1)) st3)
            (fun st3 hP3 => ih _ _ hP3) hP
        | cons u us =>
          simp only [run]
          refine preStep st _ ?_ hP
          intro st3 hP3
          cases hrun : run cfg fuel (.jnode v (level + 1)) st3 with
          | error e =>
            simpa only [error_bind, resState] using ihErr _ _ _ hrun hP3
          | ok st4 =>
            simp only [ok_bind]
            have hP4 := ihOk _ _ _ hrun hP3
            cases hcm : append_text cfg.max_width level st4 ", " with
            | error e =>
              simpa only [error_bind, resState] using hAppErr _ _ _ _ hcm hP4
            | ok st5 =>
              simp only [ok_bind]
              exact ih _ _ (hAppOk _ _ _ _ hcm hP4)
    | jmap level ex entries =>
      have preStep : ∀ st2 (rest : RState → Except (Nat × RState) RState),
          (∀ st3, P st3 → P (resState (rest st3))) → P st2 →
          P (resState (if ex = true then
              (append_text cfg.max_width level (newLine st2)
                (spaces (cfg.indent_size * (level + 1)))) >>= rest
            else (Except.ok st2 : Except (Nat × RState) RState) >>= rest)) := by
        intro st2 rest hRest hP2
        by_cases hex : ex = true
        · rw [if_pos hex]
          cases hpre : append_text cfg.max_width level (newLine st2)
              (spaces (cfg.indent_size * (level + 1))) with
          | error e =>
            simpa only [error_bind, resState] using hAppErr _ _ _ _ hpre (hNew _ hP2)
          | ok st3 =>
            simp only [ok_bind]
            exact hRest _ (hAppOk _ _ _ _ hpre (hNew _ hP2))
        · rw [if_neg hex]
          simp only [ok_bind]
          exact hRest _ hP2
      have keyStep : ∀ (key : Nat) st2 (rest : RState → Except (Nat × RState) RState),
          (∀ st3, P st3 → P (resState (rest st3))) → P st2 →
          P (resState ((append_text cfg.max_width level
              (to_repr_text cfg.reprF st2 key).2 (to_repr_text cfg.reprF st2 key).1) >>=
            fun st3 => (append_text cfg.max_width level st3 ": ") >>= rest)) := by
        intro key st2 rest hRest hP2
        cases hky : append_text cfg.max_width level
            (to_repr_text cfg.reprF st2 key).2 (to_repr_text cfg.reprF st2 key).1 with
        | error e =>
          simpa only [error_bind, resState] using hAppErr _ _ _ _ hky (hRepr _ _ hP2)
        | ok st3 =>
          simp only [ok_bind]
          have hP3 := hAppOk _ _ _ _ hky (hRepr _ _ hP2)
          cases hco : append_text cfg.max_width level st3 ": " with
          | error e =>
            simpa only [error_bind, resState] using hAppErr _ _ _ _ hco hP3
          | ok st4 =>
            simp only [ok_bind]
            exact hRest _ (hAppOk _ _ _ _ hco hP3)
      cases entries with
      | nil =>
        simp only [run, resState]
        exact hP
      | cons kv rest =>
        obtain ⟨key, value⟩ := kv
        cases rest with
        | nil =>
          simp only [run]
          refine preStep st _ ?_ hP
          intro st3 hP3
          exact keyStep key st3 _ (fun st4 hP4 => ih _ _ hP4) hP3
        | cons kv2 rest2 =>
          simp only [run]
          refine preStep st _ ?_ hP
          intro st3 hP3
          refine keyStep key st3 _ ?_ hP3
          intro st4 hP4
          cases hrun : run cfg fuel (.jnode value (level + 1)) st4 with
          | error e =>
            simpa only [error_bind, resState] using ihErr _ _ _ hrun hP4
          | ok st5 =>
            simp only [ok_bind]
            have hP5 := ihOk _ _ _ hrun hP4
            cases hcm : append_text cfg.max_width level st5 ", " with
            | error e =>
              simpa only [error_bind, resState] using hAppErr _ _ _ _ hcm hP5
            | ok st6 =>
              simp only [ok_bind]
              exact ih _ _ (hAppOk _ _ _ _ hcm hP5)


/-! ## Effects of the primitive operations, and instances of the master lemmas -/

theorem to_repr_text_fields (f : Nat → RepResult) (st : RState) (n : Nat) :
    (to_repr_text f st n).2.lines = st.lines ∧
    (to_repr_text f st n).2.visited = st.visited ∧
    (to_repr_text f st n).2.line_break = st.line_break := by
  unfold to_repr_text
  cases st.cache.lookup n <;> simp

theorem resState_append_text (W : Option Nat) (lvl : Nat) (st : RState) (t : String) :
    (resState (append_text W lvl st t)).cache = st.cache ∧
    (resState (append_text W lvl st t)).rlog = st.rlog ∧
    (resState (append_text W lvl st t)).visited = st.visited := by
  unfold append_text
  cases W with
  | none => exact ⟨rfl, rfl, rfl⟩
  | some w =>
    simp only []
    split
    · cases st.line_break with
      | none => exact ⟨rfl, rfl, rfl⟩
      | some lb =>
        simp only []
        split
        · exact ⟨rfl, rfl, rfl⟩
        · exact ⟨rfl, rfl, rfl⟩
    · exact ⟨rfl, rfl, rfl⟩

/-- In a successful traversal step the `line_break` watermark never
changes (it is only assigned on the raise path). -/
theorem run_ok_line_break (cfg : Cfg) {fuel : Nat} {job : Job} {st st1 : RState}
    (h : run cfg fuel job st = .ok st1) : st1.line_break = st.line_break := by
  refine run_ok_preserves cfg (fun s => s.line_break = st.line_break)
    ?_ ?_ ?_ ?_ ?_ fuel job st st1 h rfl
  · intro lvl s t s1 hap hP
    rw [append_text_ok_inv hap]
    exact hP
  · intro s hP
    exact hP
  · intro s n hP
    rw [(to_repr_text_fields cfg.reprF s n).2.2]
    exact hP
  · intro s n hP
    exact hP
  · intro s n hP
    exact hP

theorem lines_eq_dropLast_append (ls : List _Line) : ∃ t, ls = ls.dropLast ++ t := by
  cases hl : ls with
  | nil => exact ⟨[], rfl⟩
  | cons a as =>
    refine ⟨[(a :: as).getLast (by simp)], ?_⟩
    rw [List.dropLast_append_getLast]

/-- A successful traversal step only extends the document: the already
finished lines (all but the current one) persist unchanged. -/
theorem run_ok_dropLast (cfg : Cfg) {fuel : Nat} {job : Job} {st st1 : RState}
    (h : run cfg fuel job st = .ok st1) :
    ∃ t, st1.lines.dropLast = st.lines.dropLast ++ t := by
  refine run_ok_preserves cfg (fun s => ∃ t, s.lines.dropLast = st.lines.dropLast ++ t)
    ?_ ?_ ?_ ?_ ?_ fuel job st st1 h ⟨[], by simp⟩
  · intro lvl s t s1 hap ⟨t0, hP⟩
    rw [append_text_ok_inv hap]
    exact ⟨t0, by simpa [dropLast_updateLast] using hP⟩
  · intro s ⟨t0, hP⟩
    obtain ⟨t1, ht1⟩ := lines_eq_dropLast_append s.lines
    refine ⟨t0 ++ t1, ?_⟩
    show (s.lines ++ [emptyLine]).dropLast = _
    rw [List.dropLast_concat, ht1]
    conv_lhs => rw [hP]
    rw [List.append_assoc]
  · intro s n ⟨t0, hP⟩
    rw [(to_repr_text_fields cfg.reprF s n).1]
    exact ⟨t0, hP⟩
  · intro s n hP
    exact hP
  · intro s n hP
    exact hP

theorem getLast?_drop_of_ne_nil {l : List _Line} {n : Nat} (h : l.drop n ≠ []) :
    (l.drop n).getLast? = l.getLast? := by
  rw [List.getLast?_drop, if_neg]
  intro hle
  exact h (List.drop_eq_nil_of_le hle)

theorem mem_drop_concat {l a : _Line} {xs : List _Line} {n : Nat}
    (h : l ∈ (xs ++ [a]).drop n) : l ∈ xs.drop n ∨ l = a := by
  induction xs generalizing n with
  | nil =>
    have := List.mem_of_mem_drop h
    simp at this
    exact Or.inr this
  | cons x xs ih =>
    cases n with
    | zero =>
      simp only [List.drop] at h ⊢
      rcases List.mem_cons.mp h with h | h
      · subst h
        exact Or.inl (List.mem_cons_self _ _)
      · rcases (List.mem_append.mp h) with h | h
        · exact Or.inl (List.mem_cons_of_mem x h)
        · simp at h
          exact Or.inr h
    | succ m =>
      simp only [List.cons_append, List.drop_succ_cons] at h ⊢
      exact ih h

/-- In a successful traversal step with a width budget, every line beyond
the `line_break` watermark stays within the budget: an overflow there
would have raised, so only lines at positions up to the watermark can
ever exceed it. -/
theorem run_ok_fitsFrom (cfg : Cfg) (w : Nat) (hw : cfg.max_width = some w)
    (LB : Option Nat) {fuel : Nat} {job : Job} {st st1 : RState}
    (h : run cfg fuel job st = .ok st1)
    (hlb : st.line_break = LB) (hfit : fitsFrom w (lbVal LB) st.lines) :
    fitsFrom w (lbVal LB) st1.lines := by
  refine (run_ok_preserves cfg
    (fun s => s.line_break = LB ∧ fitsFrom w (lbVal LB) s.lines)
    ?_ ?_ ?_ ?_ ?_ fuel job st st1 h ⟨hlb, hfit⟩).2
  · intro lvl s t s1 hap ⟨hP1, hP2⟩
    rw [hw] at hap
    have hs1 := append_text_ok_inv hap
    refine ⟨by rw [hs1]; exact hP1, ?_⟩
    by_cases hover : (w : Int) < (lastLine s1.lines).cell_len
    · obtain ⟨lb, hlb1, hlen⟩ := append_text_ok_over hap hover
      rw [hP1] at hlb1
      subst hlb1
      intro l hl
      exfalso
      have hnil : (updateLast (fun ln => ln.append t) s.lines).drop lb = [] := by
        apply List.drop_eq_nil_of_le
        rw [updateLast_length]
        rw [hs1] at hlen
        simpa [updateLast_length] using hlen
      have hl2 : l ∈ (updateLast (fun ln => ln.append t) s.lines).drop lb := by
        simpa [hs1, lbVal] using hl
      rw [hnil] at hl2
      exact absurd hl2 (List.not_mem_nil l)
    · intro l hl
      have hl2 : l ∈ updateLast (fun ln => ln.append t) (s.lines.drop (lbVal LB)) := by
        rw [← drop_updateLast]
        simpa [hs1] using hl
      rcases mem_updateLast hl2 with hmem | ⟨x, hx1, hx2⟩
      · exact hP2 l (List.dropLast_subset _ hmem)
      · have hne : s.lines.drop (lbVal LB) ≠ [] := by
          intro hc
          rw [hc] at hx1
          cases hx1
        have hxlast : s.lines.getLast? = some x := by
          rw [← getLast?_drop_of_ne_nil hne]
          exact hx1
        have hlast : lastLine s1.lines = l := by
          rw [hs1]
          show lastLine (updateLast (fun ln => ln.append t) s.lines) = l
          rw [lastLine, getLast?_updateLast, hxlast]
          simp [hx2]
        rw [← hlast]
        omega
  · intro s ⟨hP1, hP2⟩
    refine ⟨hP1, ?_⟩
    intro l hl
    rcases mem_drop_concat hl with hmem | heq
    · exact hP2 l hmem
    · rw [heq]
      show (emptyLine.cell_len) ≤ (w : Int)
      simp [emptyLine, _Line.cell_len]
      omega
  · intro s n ⟨hP1, hP2⟩
    obtain ⟨h1, _, h3⟩ := to_repr_text_fields cfg.reprF s n
    rw [h1, h3]
    exact ⟨hP1, hP2⟩
  · intro s n hP
    exact hP
  · intro s n hP
    exact hP


/-- Any property of the pair (repr cache, repr-computation log) that is
preserved by a cache-miss extension holds for either outcome of a
traversal step: nothing else ever touches the cache or the log, and
entries are never removed. -/
theorem run_res_cache (cfg : Cfg) (Q : List (Nat × String) → List Nat → Prop)
    (hQ : ∀ c r n s, Q c r → c.lookup n = none → Q ((n, s) :: c) (r ++ [n])) :
    ∀ fuel job st, Q st.cache st.rlog →
      Q (resState (run cfg fuel job st)).cache (resState (run cfg fuel job st)).rlog := by
  intro fuel job st hP
  refine run_res_preserves cfg (fun s => Q s.cache s.rlog) ?_ ?_ ?_ ?_ ?_ fuel job st hP
  · intro lvl s t hP2
    obtain ⟨h1, h2, -⟩ := resState_append_text cfg.max_width lvl s t
    rw [h1, h2]
    exact hP2
  · intro s hP2
    exact hP2
  · intro s n hP2
    unfold to_repr_text
    cases hlk : s.cache.lookup n with
    | some c => exact hP2
    | none => exact hQ _ _ _ _ hP2 hlk
  · intro s n hP2
    exact hP2
  · intro s n hP2
    exact hP2

/-- A raise strictly advances the `line_break` watermark, and records in
it exactly the line count at the moment of the raise. -/
theorem run_error_line_break (cfg : Cfg) :
    ∀ fuel job st l st1, run cfg fuel job st = .error (l, st1) →
      st1.line_break = some st1.lines.length ∧
      ∀ lb, st.line_break = some lb → lb < st1.lines.length := by
  intro fuel
  induction fuel with
  | zero =>
    intro job st l st1 h
    simp only [run] at h
    cases h
  | succ fuel ih =>
    intro job st l st1 h
    have hA : ∀ lvl (s : RState) t, s.line_break = st.line_break →
        append_text cfg.max_width lvl s t = .error (l, st1) →
        st1.line_break = some st1.lines.length ∧
        ∀ lb, st.line_break = some lb → lb < st1.lines.length := by
      intro lvl s t hs hap
      obtain ⟨-, hrec, w, -, -, hmono⟩ := append_text_error_inv hap
      refine ⟨by rw [hrec], ?_⟩
      intro lb hlb
      exact hmono lb (by rw [hs]; exact hlb)
    have hR : ∀ job2 (s : RState), s.line_break = st.line_break →
        run cfg fuel job2 s = .error (l, st1) →
        st1.line_break = some st1.lines.length ∧
        ∀ lb, st.line_break = some lb → lb < st1.lines.length := by
      intro job2 s hs hrun
      exact ⟨(ih _ _ _ _ hrun).1,
        fun lb hlb => (ih _ _ _ _ hrun).2 lb (by rw [hs]; exact hlb)⟩
    cases job with
    | jnode node level =>
      simp only [run] at h
      cases hv : st.visited.contains node with
      | true =>
        rw [hv] at h
        simp only [if_true] at h
        exact hA _ _ _ rfl h
      | false =>
        rw [hv] at h
        simp only [Bool.false_eq_true, if_false] at h
        cases hac : asContainer cfg node with
        | none =>
          rw [hac] at h
          simp only [] at h
          cases hap : append_text cfg.max_width level
              (to_repr_text cfg.reprF { st with visited := node :: st.visited } node).2
              (to_repr_text cfg.reprF { st with visited := node :: st.visited } node).1 with
          | error e =>
            rw [hap] at h
            cases h
            exact hA level
              (to_repr_text cfg.reprF { st with visited := node :: st.visited } node).2 _
              (to_repr_text_fields cfg.reprF { st with visited := node :: st.visited } node).2.2
              hap
          | ok st2 =>
            rw [hap] at h
            simp only [ok_bind] at h
            cases h
        | some kd =>
          obtain ⟨k, data⟩ := kd
          rw [hac] at h
          simp only [] at h
          cases hemp : (if k = .kDict then (getMapping data).isEmpty
              else (getItems data).isEmpty) with
          | true =>
            rw [hemp] at h
            simp only [if_true] at h
            cases hap : append_text cfg.max_width level
                { st with visited := node :: st.visited } (_BRACES k).2.2 with
            | error e =>
              rw [hap] at h
              cases h
              exact hA level { st with visited := node :: st.visited } _ rfl hap
            | ok st2 =>
              rw [hap] at h
              simp only [ok_bind] at h
              cases h
          | false =>
            rw [hemp] at h
            simp only [Bool.false_eq_true, if_false] at h
            cases hap : append_text cfg.max_width level
                { st with visited := node :: st.visited } (_BRACES k).1 with
            | error e =>
              rw [hap] at h
              cases h
              exact hA level { st with visited := node :: st.visited } _ rfl hap
            | ok st2 =>
              rw [hap] at h
              simp only [ok_bind] at h
              have hs2 : st2.line_break = st.line_break := by
                have := append_text_ok_inv hap
                rw [this]
              have closeE : ∀ st3, st3.line_break = st.line_break →
                  ((if decide (level < cfg.expand_level) = true then
                    (append_text cfg.max_width level (newLine st3)
                        (spaces (cfg.indent_size * level) ++ (_BRACES k).2.1)) >>=
                      fun y => Except.ok { y with visited := y.visited.erase node }
                  else
                    (append_text cfg.max_width level st3 (_BRACES k).2.1) >>=
                      fun y => Except.ok { y with visited := y.visited.erase node })) =
                    .error (l, st1) →
                  st1.line_break = some st1.lines.length ∧
                  ∀ lb, st.line_break = some lb → lb < st1.lines.length := by
                intro st3 hs3 hcl
                by_cases he : decide (level < cfg.expand_level) = true
                · rw [if_pos he] at hcl
                  cases hap2 : append_text cfg.max_width level (newLine st3)
                      (spaces (cfg.indent_size * level) ++ (_BRACES k).2.1) with
                  | error e =>
                    rw [hap2] at hcl
                    cases hcl
                    exact hA level (newLine st3) _ hs3 hap2
                  | ok st4 =>
                    rw [hap2] at hcl
                    simp only [ok_bind] at hcl
                    cases hcl
                · rw [if_neg he] at hcl
                  cases hap2 : append_text cfg.max_width level st3 (_BRACES k).2.1 with
                  | error e =>
                    rw [hap2] at hcl
                    cases hcl
                    exact hA _ _ _ hs3 hap2
                  | ok st4 =>
                    rw [hap2] at hcl
                    simp only [ok_bind] at hcl
                    cases hcl
              by_cases hk : k = ContKind.kDict
              · rw [if_pos hk] at h
                cases hrun : run cfg fuel
                    (.jmap level (decide (level < cfg.expand_level)) (getMapping data)) st2 with
                | error e =>
                  rw [hrun] at h
                  cases h
                  exact hR _ _ hs2 hrun
                | ok st3 =>
                  rw [hrun] at h
                  simp only [ok_bind] at h
                  exact closeE st3 (by rw [run_ok_line_break cfg hrun, hs2]) h
              · rw [if_neg hk] at h
                cases hrun : run cfg fuel
                    (.jitems level (decide (level < cfg.expand_level)) (getItems data)) st2 with
                | error e =>
                  rw [hrun] at h
                  cases h
                  exact hR _ _ hs2 hrun
                | ok st3 =>
                  rw [hrun] at h
                  simp only [ok_bind] at h
                  exact closeE st3 (by rw [run_ok_line_break cfg hrun, hs2]) h
    | jitems level ex entries =>
      cases entries with
      | nil =>
        simp only [run] at h
        cases h
      | cons v rest =>
        have restE : ∀ (s2 : RState) (js : Job), s2.line_break = st.line_break →
            (do
              let st3 ← run cfg fuel (.jnode v (level + 1)) s2
              let st4 ← append_text cfg.max_width level st3 ", "
              run cfg fuel js st4) = .error (l, st1) →
            st1.line_break = some st1.lines.length ∧
            ∀ lb, st.line_break = some lb → lb < st1.lines.length := by
          intro s2 js hs2 hh
          cases hrun : run cfg fuel (.jnode v (level + 1)) s2 with
          | error e =>
            rw [hrun] at hh
            cases hh
            exact hR _ _ hs2 hrun
          | ok st3 =>
            rw [hrun] at hh
            simp only [ok_bind] at hh
            have hs3 : st3.line_break = st.line_break := by
              rw [run_ok_line_break cfg hrun, hs2]
            cases hcm : append_text cfg.max_width level st3 ", " with
            | error e =>
              rw [hcm] at hh
              cases hh
              exact hA _ _ _ hs3 hcm
            | ok st4 =>
              rw [hcm] at hh
              simp only [ok_bind] at hh
              have hs4 : st4.line_break = st.line_break := by
                have := append_text_ok_inv hcm
                rw [this]
                exact hs3
              exact hR _ _ hs4 hh
        cases rest with
        | nil =>
          simp only [run] at h
          by_cases hex : ex = true
          · rw [if_pos hex] at h
            cases hpre : append_text cfg.max_width level (newLine st)
                (spaces (cfg.indent_size * (level + 1))) with
            | error e =>
              rw [hpre] at h
              cases h
              exact hA level (newLine st) _ rfl hpre
            | ok st2 =>
              rw [hpre] at h
              simp only [ok_bind] at h
              have hs2 : st2.line_break = st.line_break := by
                have := append_text_ok_inv hpre
                rw [this]; rfl
              exact hR _ _ hs2 h
          · rw [if_neg hex] at h
            simp only [ok_bind] at h
            exact hR _ _ rfl h
        | cons u us =>
          simp only [run] at h
          by_cases hex : ex = true
          · rw [if_pos hex] at h
            cases hpre : append_text cfg.max_width level (newLine st)
                (spaces (cfg.indent_size * (level + 1))) with
            | error e =>
              rw [hpre] at h
              cases h
              exact hA level (newLine st) _ rfl hpre
            | ok st2 =>
              rw [hpre] at h
              simp only [ok_bind] at h
              have hs2 : st2.line_break = st.line_break := by
                have := append_text_ok_inv hpre
                rw [this]; rfl
              exact restE st2 _ hs2 h
          · rw [if_neg hex] at h
            simp only [ok_bind] at h
            exact restE st _ rfl h
    | jmap level ex entries =>
      cases entries with
      | nil =>
        simp only [run] at h
        cases h
      | cons kv rest =>
        obtain ⟨key, value⟩ := kv
        have keyE : ∀ (s2 : RState) (rest2 : RState → Except (Nat × RState) RState),
            s2.line_break = st.line_break →
            (∀ s4, s4.line_break = st.line_break → rest2 s4 = .error (l, st1) →
              st1.line_break = some st1.lines.length ∧
              ∀ lb, st.line_break = some lb → lb < st1.lines.length) →
            ((append_text cfg.max_width level
                (to_repr_text cfg.reprF s2 key).2 (to_repr_text cfg.reprF s2 key).1) >>=
              fun st3 => (append_text cfg.max_width level st3 ": ") >>= rest2) =
              .error (l, st1) →
            st1.line_break = some st1.lines.length ∧
            ∀ lb, st.line_break = some lb → lb < st1.lines.length := by
          intro s2 rest2 hs2 hrest hh
          cases hky : append_text cfg.max_width level
              (to_repr_text cfg.reprF s2 key).2 (to_repr_text cfg.reprF s2 key).1 with
          | error e =>
            rw [hky] at hh
            cases hh
            exact hA _ _ _ (by rw [(to_repr_text_fields cfg.reprF s2 key).2.2, hs2]) hky
          | ok st3 =>
            rw [hky] at hh
            simp only [ok_bind] at hh
            have hs3 : st3.line_break = st.line_break := by
              have := append_text_ok_inv hky
              rw [this, (to_repr_text_fields cfg.reprF s2 key).2.2, hs2]
            cases hco : append_text cfg.max_width level st3 ": " with
            | error e =>
              rw [hco] at hh
              cases hh
              exact hA _ _ _ hs3 hco
            | ok st4 =>
              rw [hco] at hh
              simp only [ok_bind] at hh
              have hs4 : st4.line_break = st.line_break := by
                have := append_text_ok_inv hco
                rw [this]
                exact hs3
              exact hrest st4 hs4 hh
        have preE : ∀ (rest2 : RState → Except (Nat × RState) RState),
            (∀ s2, s2.line_break = st.line_break → rest2 s2 = .error (l, st1) →
              st1.line_break = some st1.lines.length ∧
              ∀ lb, st.line_break = some lb → lb < st1.lines.length) →
            (if ex = true then
              (append_text cfg.max_width level (newLine st)
                (spaces (cfg.indent_size * (level + 1)))) >>= rest2
            else (Except.ok st : Except (Nat × RState) RState) >>= rest2) =
              .error (l, st1) →
            st1.line_break = some st1.lines.length ∧
            ∀ lb, st.line_break = some lb → lb < st1.lines.length := by
          intro rest2 hrest hh
          by_cases hex : ex = true
          · rw [if_pos hex] at hh
            cases hpre : append_text cfg.max_width level (newLine st)
                (spaces (cfg.indent_size * (level + 1))) with
            | error e =>
              rw [hpre] at hh
              cases hh
              exact hA level (newLine st) _ rfl hpre
            | ok st2 =>
              rw [hpre] at hh
              simp only [ok_bind] at hh
              have hs2 : st2.line_break = st.line_break := by
                have := append_text_ok_inv hpre
                rw [this]; rfl
              exact hrest st2 hs2 hh
          · rw [if_neg hex] at hh
            simp only [ok_bind] at hh
            exact hrest st rfl hh
        cases rest with
        | nil =>
          simp only [run] at h
          refine preE _ ?_ h
          intro s2 hs2 hh
          exact keyE s2 _ hs2 (fun s4 hs4 hh2 => hR _ _ hs4 hh2) hh
        | cons kv2 rest2 =>
          simp only [run] at h
          refine preE _ ?_ h
          intro s2 hs2 hh
          refine keyE s2 _ hs2 ?_ hh
          intro s4 hs4 hh2
          cases hrun : run cfg fuel (.jnode value (level + 1)) s4 with
          | error e =>
            rw [hrun] at hh2
            cases hh2
            exact hR _ _ hs4 hrun
          | ok st5 =>
            rw [hrun] at hh2
            simp only [ok_bind] at hh2
            have hs5 : st5.line_break = st.line_break := by
              rw [run_ok_line_break cfg hrun, hs4]
            cases hcm : append_text cfg.max_width level st5 ", " with
            | error e =>
              rw [hcm] at hh2
              cases hh2
              exact hA _ _ _ hs5 hcm
            | ok st6 =>
              rw [hcm] at hh2
              simp only [ok_bind] at hh2
              have hs6 : st6.line_break = st.line_break := by
                have := append_text_ok_inv hcm
                rw [this]
                exact hs5
              exact hR _ _ hs6 hh2


/-! ## Loop-level lemmas -/

theorem fitsFrom_init (w n : Nat) : fitsFrom w n [emptyLine] := by
  intro l hl
  have := List.mem_of_mem_drop hl
  simp at this
  subst this
  show emptyLine.cell_len ≤ (w : Int)
  simp [emptyLine, _Line.cell_len]
  omega

/-- Everything the retry loop returns satisfies the hysteresis-limited
width guarantee: every line at a (0-based) position at or beyond the final
`line_break` watermark fits the budget. -/
theorem reprLoop_fitsFrom (cfg : Cfg) (root : Nat) (w : Nat)
    (hw : cfg.max_width = some w) :
    ∀ fuel e st ls e1 stF, st.lines = [emptyLine] →
      reprLoop cfg root fuel e st = some (ls, e1, stF) →
      fitsFrom w (lbVal stF.line_break) ls := by
  intro fuel
  induction fuel with
  | zero =>
    intro e st ls e1 stF hst h
    simp only [reprLoop] at h
    cases h
  | succ fuel ih =>
    intro e st ls e1 stF hst h
    simp only [reprLoop] at h
    cases hrun : run { cfg with expand_level := e } (runFuel cfg) (.jnode root 0) st with
    | ok st1 =>
      rw [hrun] at h
      simp only [Option.some.injEq, Prod.mk.injEq] at h
      obtain ⟨h1, h2, h3⟩ := h
      have hlbc : stF.line_break = st.line_break := by
        rw [← h3]
        exact run_ok_line_break _ hrun
      have hf := run_ok_fitsFrom { cfg with expand_level := e } w hw st.line_break
        hrun rfl (by rw [hst]; exact fitsFrom_init w _)
      rw [hlbc, ← h1]
      exact hf
    | error e2 =>
      rw [hrun] at h
      obtain ⟨l2, st2⟩ := e2
      exact ih _ _ _ _ _ rfl h

/-- The invariant behind the repr cache: the computation log never
repeats an id, because every logged id is in the cache and cached ids are
never recomputed. -/
def cacheQ (c : List (Nat × String)) (r : List Nat) : Prop :=
  r.Nodup ∧ ∀ id ∈ r, (c.lookup id).isSome = true

theorem cacheQ_step (c : List (Nat × String)) (r : List Nat) (n : Nat) (s : String)
    (hq : cacheQ c r) (hnone : c.lookup n = none) : cacheQ ((n, s) :: c) (r ++ [n]) := by
  obtain ⟨hnd, hmem⟩ := hq
  have hnotin : n ∉ r := by
    intro hin
    have := hmem n hin
    rw [hnone] at this
    simp at this
  constructor
  · simp [List.nodup_append, hnd, hnotin]
  · intro id hid
    rcases List.mem_append.mp hid with hid | hid
    · by_cases hbe : id = n
      · subst hbe
        simp [List.lookup]
      · have hbeq : (id == n) = false := by simp [hbe]
        have hs := hmem id hid
        simp only [List.lookup, hbeq]
        exact hs
    · simp at hid
      subst hid
      simp [List.lookup]

/-- Over the whole retry loop the repr-computation log stays free of
duplicates: each leaf repr is computed at most once per top-level call,
across all attempts. -/
theorem reprLoop_cacheQ (cfg : Cfg) (root : Nat) :
    ∀ fuel e st ls e1 stF, cacheQ st.cache st.rlog →
      reprLoop cfg root fuel e st = some (ls, e1, stF) →
      cacheQ stF.cache stF.rlog := by
  intro fuel
  induction fuel with
  | zero =>
    intro e st ls e1 stF hq h
    simp only [reprLoop] at h
    cases h
  | succ fuel ih =>
    intro e st ls e1 stF hq h
    simp only [reprLoop] at h
    cases hrun : run { cfg with expand_level := e } (runFuel cfg) (.jnode root 0) st with
    | ok st1 =>
      rw [hrun] at h
      simp only [Option.some.injEq, Prod.mk.injEq] at h
      obtain ⟨h1, h2, h3⟩ := h
      have := run_res_cache { cfg with expand_level := e } cacheQ
        (fun c r n s => cacheQ_step c r n s) (runFuel cfg) (.jnode root 0) st hq
      rw [hrun] at this
      rw [← h3]
      exact this
    | error e2 =>
      rw [hrun] at h
      obtain ⟨l2, st2⟩ := e2
      have := run_res_cache { cfg with expand_level := e } cacheQ
        (fun c r n s => cacheQ_step c r n s) (runFuel cfg) (.jnode root 0) st hq
      rw [hrun] at this
      exact ih (e + 1)
        { lines := [emptyLine], visited := [], cache := st2.cache,
          line_break := st2.line_break, rlog := st2.rlog } ls e1 stF this h


/-! ## Congruence: the traversal depends on the heap only through
`asContainer` and on the repr function only through `reprStr` -/

theorem to_repr_text_congr {f f' : Nat → RepResult}
    (h : ∀ id, reprStr f id = reprStr f' id) :
    ∀ (st : RState) (n : Nat), to_repr_text f st n = to_repr_text f' st n := by
  intro st n
  unfold to_repr_text
  cases st.cache.lookup n <;> simp [h n]

theorem run_congr (cfg cfg' : Cfg)
    (hW : cfg.max_width = cfg'.max_width)
    (hI : cfg.indent_size = cfg'.indent_size)
    (hE : cfg.expand_level = cfg'.expand_level)
    (hC : ∀ id, asContainer cfg id = asContainer cfg' id)
    (hR : ∀ id, reprStr cfg.reprF id = reprStr cfg'.reprF id) :
    ∀ fuel job st, run cfg fuel job st = run cfg' fuel job st := by
  intro fuel
  induction fuel with
  | zero =>
    intro job st
    rfl
  | succ fuel ih =>
    intro job st
    cases job with
    | jnode node level =>
      simp only [run, hW, hI, hE, hC, to_repr_text_congr hR, ih]
    | jitems level ex entries =>
      cases entries with
      | nil => rfl
      | cons v rest =>
        cases rest with
        | nil => simp only [run, hW, hI, hE, to_repr_text_congr hR, ih]
        | cons u us => simp only [run, hW, hI, hE, to_repr_text_congr hR, ih]
    | jmap level ex entries =>
      cases entries with
      | nil => rfl
      | cons kv rest =>
        obtain ⟨key, value⟩ := kv
        cases rest with
        | nil => simp only [run, hW, hI, hE, to_repr_text_congr hR, ih]
        | cons kv2 rest2 => simp only [run, hW, hI, hE, to_repr_text_congr hR, ih]

theorem reprLoop_congr (cfg cfg' : Cfg) (root : Nat)
    (hW : cfg.max_width = cfg'.max_width)
    (hI : cfg.indent_size = cfg'.indent_size)
    (hC : ∀ id, asContainer cfg id = asContainer cfg' id)
    (hR : ∀ id, reprStr cfg.reprF id = reprStr cfg'.reprF id)
    (hL : runFuel cfg = runFuel cfg') :
    ∀ fuel e st, reprLoop cfg root fuel e st = reprLoop cfg' root fuel e st := by
  intro fuel
  induction fuel with
  | zero =>
    intro e st
    rfl
  | succ fuel ih =>
    intro e st
    have hcg := run_congr { cfg with expand_level := e } { cfg' with expand_level := e }
      hW hI rfl hC hR (runFuel cfg') (.jnode root 0) st
    simp only [reprLoop, hL, hcg]
    cases run { cfg' with expand_level := e } (runFuel cfg') (.jnode root 0) st with
    | ok st1 => rfl
    | error e2 =>
      obtain ⟨l2, st2⟩ := e2
      exact ih (e + 1) _

theorem prettyLines_congr (cfg cfg' : Cfg) (root : Nat)
    (hW : cfg.max_width = cfg'.max_width)
    (hI : cfg.indent_size = cfg'.indent_size)
    (hC : ∀ id, asContainer cfg id = asContainer cfg' id)
    (hR : ∀ id, reprStr cfg.reprF id = reprStr cfg'.reprF id)
    (hL : runFuel cfg = runFuel cfg') :
    prettyLines cfg root = prettyLines cfg' root := by
  unfold prettyLines
  rw [hL, reprLoop_congr cfg cfg' root hW hI hC hR hL]


/-! ## The expanded separator leaves a line ending in a space -/

theorem join_concat (xs : List String) (s : String) :
    String.join (xs ++ [s]) = String.join xs ++ s := by
  simp [String.join]

theorem endsWithSpace_append_comma (s : String) : endsWithSpace (s ++ ", ") = true := by
  unfold endsWithSpace
  rw [show (s ++ ", ").data = s.data ++ [',', ' '] from String.data_append s ", "]
  rw [List.getLast?_append_of_ne_nil s.data (by simp)]
  simp

theorem line_append_comma_ends (l : _Line) :
    endsWithSpace ((l.append ", ").text) = true := by
  rw [line_text_append]
  exact endsWithSpace_append_comma l.text

/-- A successful traversal step keeps the document non-empty. -/
theorem run_ok_lines_ne_nil (cfg : Cfg) {fuel : Nat} {job : Job} {st st1 : RState}
    (h : run cfg fuel job st = .ok st1) (hne : st.lines ≠ []) : st1.lines ≠ [] := by
  refine run_ok_preserves cfg (fun s => s.lines ≠ []) ?_ ?_ ?_ ?_ ?_ fuel job st st1 h hne
  · intro lvl s t s1 hap hP
    rw [append_text_ok_inv hap]
    exact updateLast_ne_nil hP
  · intro s hP
    simp [newLine]
  · intro s n hP
    rw [(to_repr_text_fields cfg.reprF s n).1]
    exact hP
  · intro s n hP
    exact hP
  · intro s n hP
    exact hP


/-- After the separator of a non-last entry, in expanded mode, the current
line is frozen by the next entry's line break: the finished document
contains a line whose text ends in a space. -/
theorem run_jitems_trailing (cfg : Cfg) (fuel level v : Nat) {rest : List Nat}
    (hrest : rest ≠ []) {st st1 : RState} (hne : st.lines ≠ [])
    (h : run cfg (fuel + 2) (.jitems level true (v :: rest)) st = .ok st1) :
    ∃ l ∈ st1.lines.dropLast, endsWithSpace l.text = true := by
  obtain ⟨u, us, rfl⟩ : ∃ u us, rest = u :: us := by
    cases rest with
    | nil => exact absurd rfl hrest
    | cons u us => exact ⟨u, us, rfl⟩
  obtain ⟨g, hg⟩ : ∃ g, g = fuel + 1 := ⟨fuel + 1, rfl⟩
  rw [show fuel + 2 = g + 1 by omega] at h
  simp only [run] at h
  rw [if_pos trivial] at h
  cases hpre : append_text cfg.max_width level (newLine st)
      (spaces (cfg.indent_size * (level + 1))) with
  | error e => rw [hpre] at h; cases h
  | ok st2 =>
    rw [hpre] at h
    simp only [ok_bind] at h
    cases hrun : run cfg g (.jnode v (level + 1)) st2 with
    | error e => rw [hrun] at h; cases h
    | ok st3 =>
      rw [hrun] at h
      simp only [ok_bind] at h
      have hne2 : st2.lines ≠ [] := by
        rw [append_text_ok_inv hpre]
        exact updateLast_ne_nil (by simp [newLine])
      have hne3 : st3.lines ≠ [] := run_ok_lines_ne_nil cfg hrun hne2
      cases hcm : append_text cfg.max_width level st3 ", " with
      | error e => rw [hcm] at h; cases h
      | ok st4 =>
        rw [hcm] at h
        simp only [ok_bind] at h
        obtain ⟨x, hx⟩ : ∃ x, st3.lines.getLast? = some x := by
          cases hl : st3.lines.getLast? with
          | none => exact absurd (List.getLast?_eq_none_iff.mp hl) hne3
          | some x => exact ⟨x, rfl⟩
        have hst4 : st4 = { st3 with
            lines := updateLast (fun ln => ln.append ", ") st3.lines } :=
          append_text_ok_inv hcm
        have hmem4 : (x.append ", ") ∈ st4.lines := by
          rw [hst4]
          refine List.mem_of_getLast?_eq_some ?_
          rw [getLast?_updateLast, hx]
          rfl
        subst hg
        cases us with
        | nil =>
          simp only [run] at h
          rw [if_pos trivial] at h
          cases hpre2 : append_text cfg.max_width level (newLine st4)
              (spaces (cfg.indent_size * (level + 1))) with
          | error e => rw [hpre2] at h; cases h
          | ok st5 =>
            rw [hpre2] at h
            simp only [ok_bind] at h
            have hdl5 : st5.lines.dropLast = st4.lines := by
              rw [append_text_ok_inv hpre2]
              show (updateLast (fun ln => ln.append (spaces (cfg.indent_size * (level + 1))))
                (newLine st4).lines).dropLast = st4.lines
              rw [dropLast_updateLast]
              exact List.dropLast_concat
            obtain ⟨t, ht⟩ := run_ok_dropLast cfg h
            refine ⟨x.append ", ", ?_, line_append_comma_ends x⟩
            rw [ht, hdl5]
            exact List.mem_append_left t hmem4
        | cons w ws =>
          simp only [run] at h
          rw [if_pos trivial] at h
          cases hpre2 : append_text cfg.max_width level (newLine st4)
              (spaces (cfg.indent_size * (level + 1))) with
          | error e => rw [hpre2] at h; cases h
          | ok st5 =>
            rw [hpre2] at h
            simp only [ok_bind] at h
            have hdl5 : st5.lines.dropLast = st4.lines := by
              rw [append_text_ok_inv hpre2]
              show (updateLast (fun ln => ln.append (spaces (cfg.indent_size * (level + 1))))
                (newLine st4).lines).dropLast = st4.lines
              rw [dropLast_updateLast]
              exact List.dropLast_concat
            cases hrun2 : run cfg fuel (.jnode u (level + 1)) st5 with
            | error e => rw [hrun2] at h; cases h
            | ok st6 =>
              rw [hrun2] at h
              simp only [ok_bind] at h
              obtain ⟨t1, ht1⟩ := run_ok_dropLast cfg hrun2
              cases hcm2 : append_text cfg.max_width level st6 ", " with
              | error e => rw [hcm2] at h; cases h
              | ok st7 =>
                rw [hcm2] at h
                simp only [ok_bind] at h
                obtain ⟨t2, ht2⟩ := run_ok_dropLast cfg h
                refine ⟨x.append ", ", ?_, line_append_comma_ends x⟩
                rw [ht2]
                rw [show st7.lines.dropLast = st6.lines.dropLast from by
                  rw [append_text_ok_inv hcm2]
                  exact dropLast_updateLast _ _]
                rw [ht1, hdl5]
                exact List.mem_append_left _ (List.mem_append_left _ hmem4)


/-- The mapping-entry version of `run_jitems_trailing`. -/
theorem run_jmap_trailing (cfg : Cfg) (fuel level key value : Nat)
    {rest : List (Nat × Nat)} (hrest : rest ≠ []) {st st1 : RState} (hne : st.lines ≠ [])
    (h : run cfg (fuel + 2) (.jmap level true ((key, value) :: rest)) st = .ok st1) :
    ∃ l ∈ st1.lines.dropLast, endsWithSpace l.text = true := by
  obtain ⟨kv2, rest2, rfl⟩ : ∃ kv2 rest2, rest = kv2 :: rest2 := by
    cases rest with
    | nil => exact absurd rfl hrest
    | cons kv2 rest2 => exact ⟨kv2, rest2, rfl⟩
  obtain ⟨g, hg⟩ : ∃ g, g = fuel + 1 := ⟨fuel + 1, rfl⟩
  rw [show fuel + 2 = g + 1 by omega] at h
  simp only [run] at h
  rw [if_pos trivial] at h
  cases hpre : append_text cfg.max_width level (newLine st)
      (spaces (cfg.indent_size * (level + 1))) with
  | error e => rw [hpre] at h; cases h
  | ok st2 =>
    rw [hpre] at h
    simp only [ok_bind] at h
    cases hky : append_text cfg.max_width level
        (to_repr_text cfg.reprF st2 key).2 (to_repr_text cfg.reprF st2 key).1 with
    | error e => rw [hky] at h; cases h
    | ok stk =>
      rw [hky] at h
      simp only [ok_bind] at h
      cases hco : append_text cfg.max_width level stk ": " with
      | error e => rw [hco] at h; cases h
      | ok stc =>
        rw [hco] at h
        simp only [ok_bind] at h
        cases hrun : run cfg g (.jnode value (level + 1)) stc with
        | error e => rw [hrun] at h; cases h
        | ok st3 =>
          rw [hrun] at h
          simp only [ok_bind] at h
          have hne2 : st2.lines ≠ [] := by
            rw [append_text_ok_inv hpre]
            exact updateLast_ne_nil (by simp [newLine])
          have hnek : stk.lines ≠ [] := by
            rw [append_text_ok_inv hky]
            rw [(to_repr_text_fields cfg.reprF st2 key).1]
            exact updateLast_ne_nil hne2
          have hnec : stc.lines ≠ [] := by
            rw [append_text_ok_inv hco]
            exact updateLast_ne_nil hnek
          have hne3 : st3.lines ≠ [] := run_ok_lines_ne_nil cfg hrun hnec
          cases hcm : append_text cfg.max_width level st3 ", " with
          | error e => rw [hcm] at h; cases h
          | ok st4 =>
            rw [hcm] at h
            simp only [ok_bind] at h
            obtain ⟨x, hx⟩ : ∃ x, st3.lines.getLast? = some x := by
              cases hl : st3.lines.getLast? with
              | none => exact absurd (List.getLast?_eq_none_iff.mp hl) hne3
              | some x => exact ⟨x, rfl⟩
            have hst4 : st4 = { st3 with
                lines := updateLast (fun ln => ln.append ", ") st3.lines } :=
              append_text_ok_inv hcm
            have hmem4 : (x.append ", ") ∈ st4.lines := by
              rw [hst4]
              refine List.mem_of_getLast?_eq_some ?_
              rw [getLast?_updateLast, hx]
              rfl
            subst hg
            obtain ⟨key2, value2⟩ := kv2
            cases rest2 with
            | nil =>
              simp only [run] at h
              rw [if_pos trivial] at h
              cases hpre2 : append_text cfg.max_width level (newLine st4)
                  (spaces (cfg.indent_size * (level + 1))) with
              | error e => rw [hpre2] at h; cases h
              | ok st5 =>
                rw [hpre2] at h
                simp only [ok_bind] at h
                have hdl5 : st5.lines.dropLast = st4.lines := by
                  rw [append_text_ok_inv hpre2]
                  show (updateLast (fun ln => ln.append (spaces (cfg.indent_size * (level + 1))))
                    (newLine st4).lines).dropLast = st4.lines
                  rw [dropLast_updateLast]
                  exact List.dropLast_concat
                cases hky2 : append_text cfg.max_width level
                    (to_repr_text cfg.reprF st5 key2).2 (to_repr_text cfg.reprF st5 key2).1 with
                | error e => rw [hky2] at h; cases h
                | ok st6 =>
                  rw [hky2] at h
                  simp only [ok_bind] at h
                  cases hco2 : append_text cfg.max_width level st6 ": " with
                  | error e => rw [hco2] at h; cases h
                  | ok st7 =>
                    rw [hco2] at h
                    simp only [ok_bind] at h
                    obtain ⟨t1, ht1⟩ := run_ok_dropLast cfg h
                    have hd6 : st6.lines.dropLast = st4.lines := by
                      rw [append_text_ok_inv hky2,
                        (to_repr_text_fields cfg.reprF st5 key2).1]
                      rw [dropLast_updateLast]
                      exact hdl5
                    have hd7 : st7.lines.dropLast = st4.lines := by
                      rw [append_text_ok_inv hco2]
                      rw [dropLast_updateLast]
                      exact hd6
                    refine ⟨x.append ", ", ?_, line_append_comma_ends x⟩
                    rw [ht1, hd7]
                    exact List.mem_append_left _ hmem4
            | cons kv3 rest3 =>
              simp only [run] at h
              rw [if_pos trivial] at h
              cases hpre2 : append_text cfg.max_width level (newLine st4)
                  (spaces (cfg.indent_size * (level + 1))) with
              | error e => rw [hpre2] at h; cases h
              | ok st5 =>
                rw [hpre2] at h
                simp only [ok_bind] at h
                have hdl5 : st5.lines.dropLast = st4.lines := by
                  rw [append_text_ok_inv hpre2]
                  show (updateLast (fun ln => ln.append (spaces (cfg.indent_size * (level + 1))))
                    (newLine st4).lines).dropLast = st4.lines
                  rw [dropLast_updateLast]
                  exact List.dropLast_concat
                cases hky2 : append_text cfg.max_width level
                    (to_repr_text cfg.reprF st5 key2).2 (to_repr_text cfg.reprF st5 key2).1 with
                | error e => rw [hky2] at h; cases h
                | ok st6 =>
                  rw [hky2] at h
                  simp only [ok_bind] at h
                  cases hco2 : append_text cfg.max_width level st6 ": " with
                  | error e => rw [hco2] at h; cases h
                  | ok st7 =>
                    rw [hco2] at h
                    simp only [ok_bind] at h
                    have hd7 : st7.lines.dropLast = st4.lines := by
                      rw [append_text_ok_inv hco2]
                      rw [dropLast_updateLast]
                      rw [append_text_ok_inv hky2,
                        (to_repr_text_fields cfg.reprF st5 key2).1]
                      rw [dropLast_updateLast]
                      exact hdl5
                    cases hrun2 : run cfg fuel (.jnode value2 (level + 1)) st7 with
                    | error e => rw [hrun2] at h; cases h
                    | ok st8 =>
                      rw [hrun2] at h
                      simp only [ok_bind] at h
                      obtain ⟨t1, ht1⟩ := run_ok_dropLast cfg hrun2
                      cases hcm2 : append_text cfg.max_width level st8 ", " with
                      | error e => rw [hcm2] at h; cases h
                      | ok st9 =>
                        rw [hcm2] at h
                        simp only [ok_bind] at h
                        obtain ⟨t2, ht2⟩ := run_ok_dropLast cfg h
                        refine ⟨x.append ", ", ?_, line_append_comma_ends x⟩
                        rw [ht2]
                        rw [show st9.lines.dropLast = st8.lines.dropLast from by
                          rw [append_text_ok_inv hcm2]
                          exact dropLast_updateLast _ _]
                        rw [ht1, hd7]
                        exact List.mem_append_left _ (List.mem_append_left _ hmem4)


/-- Whenever the retry loop returns from an attempt at a positive
expansion level and the root is a container with at least two entries,
some finished line of the returned document ends in a space (the `", "`
separator trailing a non-last entry). -/
theorem reprLoop_trailing (cfg : Cfg) (root : Nat) (k : ContKind) (data : ObjData)
    (hC : asContainer cfg root = some (k, data))
    (hcnt : 2 ≤ (if k = .kDict then (getMapping data).length else (getItems data).length)) :
    ∀ fuel e st ls e1 stF, st.lines = [emptyLine] → st.visited = [] →
      reprLoop cfg root fuel e st = some (ls, e1, stF) → 1 ≤ e1 →
      ∃ l ∈ ls.dropLast, endsWithSpace l.text = true := by
  intro fuel
  induction fuel with
  | zero =>
    intro e st ls e1 stF hlines hvis h he1
    simp only [reprLoop] at h
    cases h
  | succ fuel ih =>
    intro e st ls e1 stF hlines hvis h he1
    simp only [reprLoop] at h
    cases hrun : run { cfg with expand_level := e } (runFuel cfg) (.jnode root 0) st with
    | error e2 =>
      rw [hrun] at h
      obtain ⟨l2, st2⟩ := e2
      exact ih (e + 1) _ ls e1 stF rfl rfl h he1
    | ok st1 =>
      rw [hrun] at h
      simp only [Option.some.injEq, Prod.mk.injEq] at h
      obtain ⟨h1, h2, h3⟩ := h
      subst h2
      have hdec : decide ((0 : Nat) < e) = true := by
        simp
        omega
      obtain ⟨m, hm⟩ : ∃ m, runFuel cfg = m + 3 := by
        have h16 : 16 ≤ runFuel cfg := by
          have : (16 : Nat) = 2 ^ 4 := by norm_num
          rw [this, runFuel]
          exact Nat.pow_le_pow_right (by norm_num) (by omega)
        exact ⟨runFuel cfg - 3, by omega⟩
      obtain ⟨g, hg⟩ : ∃ g, g = m + 2 := ⟨m + 2, rfl⟩
      rw [hm, show m + 3 = g + 1 by omega] at hrun
      simp only [run] at hrun
      rw [hvis] at hrun
      simp only [List.contains, List.elem, Bool.false_eq_true, if_false] at hrun
      have hC2 : asContainer { cfg with expand_level := e } root = some (k, data) := hC
      simp only [hC2] at hrun
      have hne0 : st.lines ≠ [] := by rw [hlines]; simp
      by_cases hk : k = ContKind.kDict
      · obtain ⟨kv1, kv2, rest, hmap⟩ :
            ∃ kv1 kv2 rest, getMapping data = kv1 :: kv2 :: rest := by
          rw [if_pos hk] at hcnt
          cases hd : getMapping data with
          | nil => rw [hd] at hcnt; simp at hcnt
          | cons a as =>
            cases as with
            | nil => rw [hd] at hcnt; simp at hcnt
            | cons b bs => exact ⟨a, b, bs, rfl⟩
        rw [hmap] at hrun
        have hemp : (if k = ContKind.kDict then (kv1 :: kv2 :: rest).isEmpty
            else (getItems data).isEmpty) = false := by
          rw [if_pos hk]
          rfl
        rw [hemp] at hrun
        simp only [Bool.false_eq_true, if_false] at hrun
        cases hap : append_text cfg.max_width 0
            { st with visited := [root] } (_BRACES k).1 with
        | error e3 => rw [hap] at hrun; cases hrun
        | ok stA =>
          rw [hap] at hrun
          simp only [ok_bind] at hrun
          rw [if_pos hk, hdec] at hrun
          cases hmid : run { cfg with expand_level := e } g
              (.jmap 0 true (kv1 :: kv2 :: rest)) stA with
          | error e3 => rw [hmid] at hrun; cases hrun
          | ok stMid =>
            rw [hmid] at hrun
            simp only [ok_bind] at hrun
            have hneA : stA.lines ≠ [] := by
              rw [append_text_ok_inv hap]
              exact updateLast_ne_nil hne0
            obtain ⟨key1, val1⟩ := kv1
            rw [hg] at hmid
            have htr := @run_jmap_trailing { cfg with expand_level := e } m 0 key1 val1
              (kv2 :: rest) (by simp) stA stMid hneA hmid
            rw [if_pos trivial] at hrun
            cases hcl : append_text cfg.max_width 0
                (newLine stMid)
                (spaces (cfg.indent_size * 0) ++ (_BRACES k).2.1) with
            | error e3 => rw [hcl] at hrun; cases hrun
            | ok stEnd =>
              rw [hcl] at hrun
              simp only [ok_bind] at hrun
              cases hrun
              obtain ⟨l, hl, hls⟩ := htr
              refine ⟨l, ?_, hls⟩
              rw [← h1]
              show l ∈ stEnd.lines.dropLast
              rw [append_text_ok_inv hcl]
              show l ∈ (updateLast _ (newLine stMid).lines).dropLast
              rw [dropLast_updateLast]
              rw [show (newLine stMid).lines.dropLast = stMid.lines from List.dropLast_concat]
              exact List.dropLast_subset _ hl
      · obtain ⟨v1, v2, rest, hits⟩ :
            ∃ v1 v2 rest, getItems data = v1 :: v2 :: rest := by
          rw [if_neg hk] at hcnt
          cases hd : getItems data with
          | nil => rw [hd] at hcnt; simp at hcnt
          | cons a as =>
            cases as with
            | nil => rw [hd] at hcnt; simp at hcnt
            | cons b bs => exact ⟨a, b, bs, rfl⟩
        rw [hits] at hrun
        have hemp : (if k = ContKind.kDict then (getMapping data).isEmpty
            else (v1 :: v2 :: rest).isEmpty) = false := by
          rw [if_neg hk]
          rfl
        rw [hemp] at hrun
        simp only [Bool.false_eq_true, if_false] at hrun
        cases hap : append_text cfg.max_width 0
            { st with visited := [root] } (_BRACES k).1 with
        | error e3 => rw [hap] at hrun; cases hrun
        | ok stA =>
          rw [hap] at hrun
          simp only [ok_bind] at hrun
          rw [if_neg hk, hdec] at hrun
          cases hmid : run { cfg with expand_level := e } g
              (.jitems 0 true (v1 :: v2 :: rest)) stA with
          | error e3 => rw [hmid] at hrun; cases hrun
          | ok stMid =>
            rw [hmid] at hrun
            simp only [ok_bind] at hrun
            have hneA : stA.lines ≠ [] := by
              rw [append_text_ok_inv hap]
              exact updateLast_ne_nil hne0
            rw [hg] at hmid
            have htr := @run_jitems_trailing { cfg with expand_level := e } m 0 v1
              (v2 :: rest) (by simp) stA stMid hneA hmid
            rw [if_pos trivial] at hrun
            cases hcl : append_text cfg.max_width 0
                (newLine stMid)
                (spaces (cfg.indent_size * 0) ++ (_BRACES k).2.1) with
            | error e3 => rw [hcl] at hrun; cases hrun
            | ok stEnd =>
              rw [hcl] at hrun
              simp only [ok_bind] at hrun
              cases hrun
              obtain ⟨l, hl, hls⟩ := htr
              refine ⟨l, ?_, hls⟩
              rw [← h1]
              show l ∈ stEnd.lines.dropLast
              rw [append_text_ok_inv hcl]
              show l ∈ (updateLast _ (newLine stMid).lines).dropLast
              rw [dropLast_updateLast]
              rw [show (newLine stMid).lines.dropLast = stMid.lines from List.dropLast_concat]
              exact List.dropLast_subset _ hl


/-- The node-level version of `reprLoop_trailing`: rendering any container
with at least two entries in expanded mode (its level is below the expand
level), at any level, from any state, leaves a line ending in a space
among the finished (non-current) lines. -/
theorem run_jnode_trailing (cfg : Cfg) (fuel node level : Nat) (k : ContKind)
    (data : ObjData) {st st1 : RState}
    (hC : asContainer cfg node = some (k, data))
    (hcnt : 2 ≤ (if k = .kDict then (getMapping data).length else (getItems data).length))
    (hexp : decide (level < cfg.expand_level) = true)
    (hv : st.visited.contains node = false)
    (hne : st.lines ≠ [])
    (h : run cfg (fuel + 3) (.jnode node level) st = .ok st1) :
    ∃ l ∈ st1.lines.dropLast, endsWithSpace l.text = true := by
  obtain ⟨g, hg⟩ : ∃ g, g = fuel + 2 := ⟨fuel + 2, rfl⟩
  rw [show fuel + 3 = g + 1 by omega] at h
  simp only [run] at h
  rw [hv] at h
  simp only [Bool.false_eq_true, if_false] at h
  simp only [hC] at h
  by_cases hk : k = ContKind.kDict
  · obtain ⟨kv1, kv2, rest, hmap⟩ :
        ∃ kv1 kv2 rest, getMapping data = kv1 :: kv2 :: rest := by
      rw [if_pos hk] at hcnt
      cases hd : getMapping data with
      | nil => rw [hd] at hcnt; simp at hcnt
      | cons a as =>
        cases as with
        | nil => rw [hd] at hcnt; simp at hcnt
        | cons b bs => exact ⟨a, b, bs, rfl⟩
    rw [hmap] at h
    have hemp : (if k = ContKind.kDict then (kv1 :: kv2 :: rest).isEmpty
        else (getItems data).isEmpty) = false := by
      rw [if_pos hk]
      rfl
    rw [hemp] at h
    simp only [Bool.false_eq_true, if_false] at h
    cases hap : append_text cfg.max_width level
        { st with visited := node :: st.visited } (_BRACES k).1 with
    | error e3 => rw [hap] at h; cases h
    | ok stA =>
      rw [hap] at h
      simp only [ok_bind] at h
      rw [if_pos hk, hexp] at h
      cases hmid : run cfg g (.jmap level true (kv1 :: kv2 :: rest)) stA with
      | error e3 => rw [hmid] at h; cases h
      | ok stMid =>
        rw [hmid] at h
        simp only [ok_bind] at h
        have hneA : stA.lines ≠ [] := by
          rw [append_text_ok_inv hap]
          exact updateLast_ne_nil hne
        obtain ⟨key1, val1⟩ := kv1
        rw [hg] at hmid
        have htr := @run_jmap_trailing cfg fuel level key1 val1
          (kv2 :: rest) (by simp) stA stMid hneA hmid
        rw [if_pos trivial] at h
        cases hcl : append_text cfg.max_width level
            (newLine stMid)
            (spaces (cfg.indent_size * level) ++ (_BRACES k).2.1) with
        | error e3 => rw [hcl] at h; cases h
        | ok stEnd =>
          rw [hcl] at h
          simp only [ok_bind] at h
          cases h
          obtain ⟨l, hl, hls⟩ := htr
          refine ⟨l, ?_, hls⟩
          show l ∈ stEnd.lines.dropLast
          rw [append_text_ok_inv hcl]
          show l ∈ (updateLast _ (newLine stMid).lines).dropLast
          rw [dropLast_updateLast]
          rw [show (newLine stMid).lines.dropLast = stMid.lines from List.dropLast_concat]
          exact List.dropLast_subset _ hl
  · obtain ⟨v1, v2, rest, hits⟩ :
        ∃ v1 v2 rest, getItems data = v1 :: v2 :: rest := by
      rw [if_neg hk] at hcnt
      cases hd : getItems data with
      | nil => rw [hd] at hcnt; simp at hcnt
      | cons a as =>
        cases as with
        | nil => rw [hd] at hcnt; simp at hcnt
        | cons b bs => exact ⟨a, b, bs, rfl⟩
    rw [hits] at h
    have hemp : (if k = ContKind.kDict then (getMapping data).isEmpty
        else (v1 :: v2 :: rest).isEmpty) = false := by
      rw [if_neg hk]
      rfl
    rw [hemp] at h
    simp only [Bool.false_eq_true, if_false] at h
    cases hap : append_text cfg.max_width level
        { st with visited := node :: st.visited } (_BRACES k).1 with
    | error e3 => rw [hap] at h; cases h
    | ok stA =>
      rw [hap] at h
      simp only [ok_bind] at h
      rw [if_neg hk, hexp] at h
      cases hmid : run cfg g (.jitems level true (v1 :: v2 :: rest)) stA with
      | error e3 => rw [hmid] at h; cases h
      | ok stMid =>
        rw [hmid] at h
        simp only [ok_bind] at h
        have hneA : stA.lines ≠ [] := by
          rw [append_text_ok_inv hap]
          exact updateLast_ne_nil hne
        rw [hg] at hmid
        have htr := @run_jitems_trailing cfg fuel level v1
          (v2 :: rest) (by simp) stA stMid hneA hmid
        rw [if_pos trivial] at h
        cases hcl : append_text cfg.max_width level
            (newLine stMid)
            (spaces (cfg.indent_size * level) ++ (_BRACES k).2.1) with
        | error e3 => rw [hcl] at h; cases h
        | ok stEnd =>
          rw [hcl] at h
          simp only [ok_bind] at h
          cases h
          obtain ⟨l, hl, hls⟩ := htr
          refine ⟨l, ?_, hls⟩
          show l ∈ stEnd.lines.dropLast
          rw [append_text_ok_inv hcl]
          show l ∈ (updateLast _ (newLine stMid).lines).dropLast
          rw [dropLast_updateLast]
          rw [show (newLine stMid).lines.dropLast = stMid.lines from List.dropLast_concat]
          exact List.dropLast_subset _ hl

/-! ## With no width budget the traversal renders the inline form -/

theorem lookup_mem {c : List (Nat × String)} {n : Nat} {s : String}
    (h : c.lookup n = some s) : (n, s) ∈ c := by
  induction c with
  | nil => cases h
  | cons p ps ih =>
    obtain ⟨k, b⟩ := p
    rw [List.lookup] at h
    cases hbe : (n == k) with
    | true =>
      rw [hbe] at h
      cases h
      have : n = k := by simpa using hbe
      subst this
      exact List.mem_cons_self _ _
    | false =>
      rw [hbe] at h
      exact List.mem_cons_of_mem _ (ih h)

theorem to_repr_text_cacheOK {f : Nat → RepResult} {st : RState} (n : Nat)
    (hc : cacheOK f st.cache) :
    (to_repr_text f st n).1 = reprStr f n ∧ cacheOK f (to_repr_text f st n).2.cache := by
  unfold to_repr_text
  cases hlk : st.cache.lookup n with
  | some s =>
    exact ⟨hc _ (lookup_mem hlk), hc⟩
  | none =>
    refine ⟨rfl, ?_⟩
    intro p hp
    rcases List.mem_cons.mp hp with hp | hp
    · subst hp
      rfl
    · exact hc p hp

theorem append_text_none (lvl : Nat) (st : RState) (t : String) :
    append_text none lvl st t =
      .ok { st with lines := updateLast (fun l => l.append t) st.lines } := rfl

/-- One inline step: the state evolves by appending `s` to the current
line's text, preserving the visited path, the watermark, non-emptiness of
the document and soundness of the cache. -/
def IStep (cfg : Cfg) (s : String) (st st1 : RState) : Prop :=
  st1.visited = st.visited ∧ st1.line_break = st.line_break ∧ st1.lines ≠ [] ∧
  cacheOK cfg.reprF st1.cache ∧ lineTexts st1.lines = textApp (lineTexts st.lines) s

theorem IStep_trans {cfg : Cfg} {s1 s2 : String} {st st1 st2 : RState}
    (h1 : IStep cfg s1 st st1) (h2 : IStep cfg s2 st1 st2) :
    IStep cfg (s1 ++ s2) st st2 := by
  obtain ⟨a1, b1, c1, d1, e1⟩ := h1
  obtain ⟨a2, b2, c2, d2, e2⟩ := h2
  exact ⟨a2.trans a1, b2.trans b1, c2, d2, by rw [e2, e1, textApp_textApp]⟩

theorem IStep_append {cfg : Cfg} (lvl : Nat) {st : RState} (t : String)
    (hne : st.lines ≠ []) (hc : cacheOK cfg.reprF st.cache) :
    IStep cfg t st { st with lines := updateLast (fun l => l.append t) st.lines } :=
  ⟨rfl, rfl, updateLast_ne_nil hne, hc, lineTexts_updateLast t st.lines⟩

theorem IStep_empty {cfg : Cfg} {st : RState} (hne : st.lines ≠ [])
    (hc : cacheOK cfg.reprF st.cache) : IStep cfg "" st st :=
  ⟨rfl, rfl, hne, hc, (textApp_empty _).symm⟩

theorem IStep_repr {cfg : Cfg} {st : RState} (n : Nat) (hne : st.lines ≠ [])
    (hc : cacheOK cfg.reprF st.cache) :
    IStep cfg "" st (to_repr_text cfg.reprF st n).2 := by
  obtain ⟨hl, hv, hb⟩ := to_repr_text_fields cfg.reprF st n
  refine ⟨hv, hb, by rw [hl]; exact hne, (to_repr_text_cacheOK n hc).2, ?_⟩
  rw [hl, textApp_empty]


theorem IStep_congr {cfg : Cfg} {s1 s2 : String} {st st1 : RState}
    (h : IStep cfg s1 st st1) (e : s1 = s2) : IStep cfg s2 st st1 := e ▸ h

theorem IStep_pop {cfg : Cfg} {node : Nat} {s : String} {st st3 : RState}
    (h : IStep cfg s { st with visited := node :: st.visited } st3) :
    IStep cfg s st { st3 with visited := st3.visited.erase node } := by
  obtain ⟨a, b, c, d, e⟩ := h
  refine ⟨?_, b, c, d, e⟩
  rw [a]
  exact List.erase_cons_head node st.visited

theorem IStep_leaf {cfg : Cfg} {st : RState} (node : Nat) (hne : st.lines ≠ [])
    (hc : cacheOK cfg.reprF st.cache) :
    IStep cfg (reprStr cfg.reprF node) st
      { (to_repr_text cfg.reprF st node).2 with
        lines := updateLast (fun l => l.append (to_repr_text cfg.reprF st node).1)
          (to_repr_text cfg.reprF st node).2.lines } := by
  have h1 := @IStep_repr cfg st node hne hc
  have h3 := IStep_trans h1
    (@IStep_append cfg 0 (to_repr_text cfg.reprF st node).2
      (to_repr_text cfg.reprF st node).1 h1.2.2.1 h1.2.2.2.1)
  refine IStep_congr h3 ?_
  rw [(@to_repr_text_cacheOK cfg.reprF st node hc).1]
  rfl

theorem IStep_key {cfg : Cfg} {st : RState} (key : Nat) (hne : st.lines ≠ [])
    (hc : cacheOK cfg.reprF st.cache) :
    IStep cfg (reprStr cfg.reprF key ++ ": ") st
      { (to_repr_text cfg.reprF st key).2 with
        lines := updateLast (fun l => l.append ": ")
          (updateLast (fun l => l.append (to_repr_text cfg.reprF st key).1)
            (to_repr_text cfg.reprF st key).2.lines) } := by
  have h1 := @IStep_leaf cfg st key hne hc
  exact IStep_trans h1 (@IStep_append cfg 0 _ ": " h1.2.2.1 h1.2.2.2.1)

theorem run_inline (cfg : Cfg) (hW : cfg.max_width = none) (hE : cfg.expand_level = 0) :
    ∀ fuel job st, jobInline job → st.lines ≠ [] → cacheOK cfg.reprF st.cache →
      ∃ st1, run cfg fuel job st = .ok st1 ∧
        IStep cfg (inlineRender cfg fuel job st.visited) st st1 := by
  intro fuel
  induction fuel with
  | zero =>
    intro job st _ hne hc
    exact ⟨st, rfl, IStep_empty hne hc⟩
  | succ fuel ih =>
    intro job st hj hne hc
    cases job with
    | jnode node level =>
      have hdec : decide (level < cfg.expand_level) = false := by
        rw [hE]
        simp
      simp only [run, inlineRender]
      cases hv : st.visited.contains node with
      | true =>
        simp only [if_true]
        rw [hW, append_text_none]
        exact ⟨_, rfl, IStep_append level "..." hne hc⟩
      | false =>
        simp only [Bool.false_eq_true, if_false]
        cases hac : asContainer cfg node with
        | none =>
          simp only []
          rw [hW]
          simp only [append_text_none, ok_bind]
          exact ⟨_, rfl, IStep_pop
            (@IStep_leaf cfg { st with visited := node :: st.visited } node hne hc)⟩
        | some p =>
          obtain ⟨k, data⟩ := p
          simp only []
          cases hemp : (if k = ContKind.kDict then (getMapping data).isEmpty
              else (getItems data).isEmpty) with
          | true =>
            simp only [if_true]
            rw [hW]
            simp only [append_text_none, ok_bind]
            exact ⟨_, rfl, IStep_pop
              (@IStep_append cfg level { st with visited := node :: st.visited }
                (_BRACES k).2.2 hne hc)⟩
          | false =>
            simp only [Bool.false_eq_true, if_false]
            rw [hdec]
            simp only [Bool.false_eq_true, if_false]
            rw [hW]
            simp only [append_text_none, ok_bind]
            by_cases hk : k = ContKind.kDict
            · rw [if_pos hk, if_pos hk]
              obtain ⟨sM, hM, hIM⟩ := ih (.jmap level false (getMapping data))
                { st with
                  lines := updateLast (fun l => l.append (_BRACES k).1) st.lines,
                  visited := node :: st.visited } rfl (updateLast_ne_nil hne) hc
              rw [hM]
              simp only [ok_bind, append_text_none]
              refine ⟨_, rfl, ?_⟩
              have h0 := @IStep_append cfg level { st with visited := node :: st.visited }
                (_BRACES k).1 hne hc
              exact IStep_pop (IStep_trans (IStep_trans h0 hIM)
                (@IStep_append cfg level sM (_BRACES k).2.1 hIM.2.2.1 hIM.2.2.2.1))
            · rw [if_neg hk, if_neg hk]
              obtain ⟨sM, hM, hIM⟩ := ih (.jitems level false (getItems data))
                { st with
                  lines := updateLast (fun l => l.append (_BRACES k).1) st.lines,
                  visited := node :: st.visited } rfl (updateLast_ne_nil hne) hc
              rw [hM]
              simp only [ok_bind, append_text_none]
              refine ⟨_, rfl, ?_⟩
              have h0 := @IStep_append cfg level { st with visited := node :: st.visited }
                (_BRACES k).1 hne hc
              exact IStep_pop (IStep_trans (IStep_trans h0 hIM)
                (@IStep_append cfg level sM (_BRACES k).2.1 hIM.2.2.1 hIM.2.2.2.1))
    | jitems level ex entries =>
      have hex : ex = false := hj
      subst hex
      cases entries with
      | nil =>
        exact ⟨st, rfl, IStep_empty hne hc⟩
      | cons v rest =>
        cases rest with
        | nil =>
          simp only [run, inlineRender, Bool.false_eq_true, if_false, ok_bind]
          obtain ⟨sM, hM, hIM⟩ := ih (.jnode v (level + 1)) st trivial hne hc
          rw [hM]
          exact ⟨_, rfl, hIM⟩
        | cons v2 rest2 =>
          simp only [run, inlineRender, Bool.false_eq_true, if_false, ok_bind]
          obtain ⟨sM, hM, hIM⟩ := ih (.jnode v (level + 1)) st trivial hne hc
          rw [hM]
          rw [hW]
          simp only [ok_bind, append_text_none]
          obtain ⟨sN, hN, hIN⟩ := ih (.jitems level false (v2 :: rest2))
            { sM with lines := updateLast (fun l => l.append ", ") sM.lines } rfl
            (updateLast_ne_nil hIM.2.2.1) hIM.2.2.2.1
          rw [hN]
          refine ⟨_, rfl, ?_⟩
          exact IStep_trans (IStep_trans hIM
            (@IStep_append cfg level sM ", " hIM.2.2.1 hIM.2.2.2.1))
            (IStep_congr hIN (congrArg
              (inlineRender cfg fuel (Job.jitems level false (v2 :: rest2))) hIM.1))
    | jmap level ex entries =>
      have hex : ex = false := hj
      subst hex
      cases entries with
      | nil =>
        exact ⟨st, rfl, IStep_empty hne hc⟩
      | cons kv rest =>
        obtain ⟨key, value⟩ := kv
        cases rest with
        | nil =>
          simp only [run, inlineRender, Bool.false_eq_true, if_false, ok_bind]
          rw [hW]
          simp only [append_text_none, ok_bind]
          have hne2 : (to_repr_text cfg.reprF st key).2.lines ≠ [] := by
            rw [(to_repr_text_fields cfg.reprF st key).1]
            exact hne
          have hc2 : cacheOK cfg.reprF (to_repr_text cfg.reprF st key).2.cache :=
            (@to_repr_text_cacheOK cfg.reprF st key hc).2
          obtain ⟨sM, hM, hIM⟩ := ih (.jnode value (level + 1))
            { (to_repr_text cfg.reprF st key).2 with
              lines := updateLast (fun l => l.append ": ")
                (updateLast (fun l => l.append (to_repr_text cfg.reprF st key).1)
                  (to_repr_text cfg.reprF st key).2.lines) } trivial
            (updateLast_ne_nil (updateLast_ne_nil hne2)) hc2
          rw [hM]
          refine ⟨_, rfl, ?_⟩
          have hKey := @IStep_key cfg st key hne hc
          exact IStep_trans hKey (IStep_congr hIM (congrArg
            (inlineRender cfg fuel (Job.jnode value (level + 1)))
            ((to_repr_text_fields cfg.reprF st key).2.1)))
        | cons kv2 rest2 =>
          obtain ⟨key2, value2⟩ := kv2
          simp only [run, inlineRender, Bool.false_eq_true, if_false, ok_bind]
          rw [hW]
          simp only [append_text_none, ok_bind]
          have hne2 : (to_repr_text cfg.reprF st key).2.lines ≠ [] := by
            rw [(to_repr_text_fields cfg.reprF st key).1]
            exact hne
          have hc2 : cacheOK cfg.reprF (to_repr_text cfg.reprF st key).2.cache :=
            (@to_repr_text_cacheOK cfg.reprF st key hc).2
          obtain ⟨sM, hM, hIM⟩ := ih (.jnode value (level + 1))
            { (to_repr_text cfg.reprF st key).2 with
              lines := updateLast (fun l => l.append ": ")
                (updateLast (fun l => l.append (to_repr_text cfg.reprF st key).1)
                  (to_repr_text cfg.reprF st key).2.lines) } trivial
            (updateLast_ne_nil (updateLast_ne_nil hne2)) hc2
          rw [hM]
          simp only [ok_bind, append_text_none]
          obtain ⟨sN, hN, hIN⟩ := ih (.jmap level false ((key2, value2) :: rest2))
            { sM with lines := updateLast (fun l => l.append ", ") sM.lines } rfl
            (updateLast_ne_nil hIM.2.2.1) hIM.2.2.2.1
          rw [hN]
          refine ⟨_, rfl, ?_⟩
          have hKey := @IStep_key cfg st key hne hc
          have hKM := IStep_trans hKey (IStep_congr hIM (congrArg
            (inlineRender cfg fuel (Job.jnode value (level + 1)))
            ((to_repr_text_fields cfg.reprF st key).2.1)))
          exact IStep_trans (IStep_trans hKM
            (@IStep_append cfg level sM ", " hKM.2.2.1 hKM.2.2.2.1))
            (IStep_congr hIN (congrArg
              (inlineRender cfg fuel (Job.jmap level false ((key2, value2) :: rest2))) hKM.1))


/-! ## The claims -/

/-- Claim C1 (amended): with a width budget in force, every line of the
Document `pretty_repr` returns whose 0-based position is at or beyond the
final `line_break` watermark has effective width within the budget; the
original claim — that the whole Document fits whenever some expansion
level bounded by the tree depth yields a fitting layout — is refuted by
`C1_hysteresis_cex` (the overflow hysteresis can retain an over-budget
line). -/
theorem C1_width_above_watermark (cfg : Cfg) (root w : Nat)
    (hw : cfg.max_width = some w) (ls : List _Line) (e1 : Nat) (stF : RState)
    (h : prettyLines cfg root = some (ls, e1, stF)) :
    fitsFrom w (lbVal stF.line_break) ls :=
  reprLoop_fitsFrom cfg root w hw (runFuel cfg) 0 initState ls e1 stF rfl h

theorem C1_width_above_watermark_witness :
    ∃ r, prettyLines cfgThree 0 = some r ∧ fitsFrom 5 (lbVal r.2.2.line_break) r.1 :=
  ⟨_, rfl, C1_width_above_watermark cfgThree 0 5 rfl _ _ _ rfl⟩

theorem C1_hysteresis_cex :
    (∃ e, e ≤ depthOf cfgWide (runFuel cfgWide) 0 ∧ fitsFrom 20 0 (layoutAt cfgWide 0 e)) ∧
    ∃ r, prettyLines cfgWide 0 = some r ∧ ¬ fitsFrom 20 0 r.1 :=
  ⟨⟨3, by decide, by decide⟩, ⟨_, rfl, by decide⟩⟩

/-- Claim C2 (amended): an append that makes the current line overflow the
budget and is accepted (`ok`) can happen only under the hysteresis
exception — a `line_break` watermark from an earlier attempt is recorded
and the line count has not passed it; an append that aborts raises the
overflow signal carrying exactly the current nesting level, records the
new watermark as the aborted document's line count, and its last line
indeed overflows. -/
theorem C2_append_overflow (w lvl : Nat) (st : RState) (t : String) :
    (∀ st1, append_text (some w) lvl st t = .ok st1 →
      (w : Int) < (lastLine st1.lines).cell_len →
      ∃ lb, st.line_break = some lb ∧ st1.lines.length ≤ lb) ∧
    (∀ l st1, append_text (some w) lvl st t = .error (l, st1) →
      l = lvl ∧ st1.line_break = some st1.lines.length ∧
      (w : Int) < (lastLine st1.lines).cell_len) := by
  constructor
  · intro st1 h hover
    exact append_text_ok_over h hover
  · intro l st1 h
    obtain ⟨hl, hrec, w2, hw2, hover, hmono⟩ := append_text_error_inv h
    injection hw2 with hww
    subst hww
    subst hrec
    exact ⟨hl, rfl, hover⟩

theorem C2_overflow_retained_cex :
    (∃ st1, append_text (some 5) 0
        { lines := [emptyLine], visited := [], cache := [], line_break := some 1, rlog := [] }
        "xxxxxxxxxxxx" = .ok st1 ∧ (5 : Int) < (lastLine st1.lines).cell_len) ∧
    (∃ r, prettyLines cfgLong 0 = some r ∧ ¬ fitsFrom 5 0 r.1) :=
  ⟨⟨_, rfl, by decide⟩, ⟨_, rfl, by decide⟩⟩

/-- Claim C3 (amended): what drives the retry loop is not a `D+1` attempt
bound (refuted by `C3_attempts_cex`) but watermark progress: every aborted
traversal attempt leaves `line_break` equal to the aborted document's line
count, strictly greater than any previously recorded watermark. -/
theorem C3_watermark_progress (cfg : Cfg) (fuel : Nat) (job : Job) (st : RState)
    (l : Nat) (st1 : RState) (h : run cfg fuel job st = .error (l, st1)) :
    st1.line_break = some st1.lines.length ∧
    ∀ lb, st.line_break = some lb → lb < st1.lines.length :=
  run_error_line_break cfg fuel job st l st1 h

theorem C3_watermark_progress_witness :
    ∃ p, run cfgLong (runFuel cfgLong) (.jnode 0 0) initState = .error p ∧
      p.2.line_break = some p.2.lines.length :=
  ⟨_, rfl, (C3_watermark_progress cfgLong (runFuel cfgLong) (.jnode 0 0) initState _ _ rfl).1⟩

theorem C3_attempts_cex :
    depthOf cfgThree (runFuel cfgThree) 0 = 1 ∧
    ∃ r, prettyLines cfgThree 0 = some r ∧
      depthOf cfgThree (runFuel cfgThree) 0 + 1 < r.2.1 :=
  ⟨by decide, ⟨_, rfl, by decide⟩⟩

/-- Claim C4 (amended): rendering the self-referential list `L = [1];
L.append(L)` at the default width 80 terminates and returns `"[1, ...]"`
(the placeholder is the three-dot ellipsis, not `"[...]"` as claimed —
see `C4_cycle_text_cex`); a node already on the visited path is rendered
by appending `"..."` instead of recursing, and an accepted append leaves
the visited set unchanged. -/
theorem C4_cycle_ellipsis :
    pretty_text cfgCycle 0 = some "[1, ...]" ∧
    (∀ cfg fuel node level st, st.visited.contains node = true →
      run cfg (fuel + 1) (.jnode node level) st =
        append_text cfg.max_width level st "...") ∧
    (∀ W lvl st t st1, append_text W lvl st t = .ok st1 → st1.visited = st.visited) := by
  refine ⟨by decide, ?_, ?_⟩
  · intro cfg fuel node level st h
    simp only [run, h, if_true]
  · intro W lvl st t st1 h
    rw [append_text_ok_inv h]

theorem C4_cycle_text_cex :
    pretty_text cfgCycle 0 = some "[1, ...]" ∧
    pretty_text cfgCycle 0 ≠ some "[1, [...]]" := by
  constructor
  · decide
  · decide

/-- Claim C5: a leaf whose repr computation fails renders as the
diagnostic placeholder embedding the failure message — never propagating
the failure — and concretely a dict containing a leaf failing with
"division by zero" renders with `<error in repr: division by zero>` in
place of that leaf, identically to the same heap with the placeholder as
an ordinary repr (the surrounding structure is unaffected). -/
theorem C5_repr_error_placeholder :
    (∀ (f : Nat → RepResult) id m, f id = .err m →
      reprStr f id = "<error in repr: " ++ m ++ ">") ∧
    pretty_text cfgBroken 0 = some "\x7bBroken: <error in repr: division by zero>\x7d" ∧
    pretty_text cfgBroken 0 =
      pretty_text { cfgBroken with
        reprF := fun n => if n = 2 then .ok "<error in repr: division by zero>"
                          else cfgBroken.reprF n } 0 := by
  refine ⟨?_, by decide, by decide⟩
  intro f id m h
  unfold reprStr
  rw [h]

/-- Claim C6: classification is by exact kind: a heap object is a
container exactly when `typeContainerKind` of its exact type is one of the
five recognised kinds; a subclass (`pySub`) or any other type maps to
`none`, so it is rendered as a leaf via its external repr; concretely the
`MyList` subclass element of `cfgSub` is not a container and its child is
never recursed into. -/
theorem C6_exact_kind_classification :
    (∀ cfg id obj, cfg.heap.lookup id = some obj →
      asContainer cfg id = (typeContainerKind obj.ty).map fun k => (k, obj.data)) ∧
    (∀ b s, typeContainerKind (.pySub b s) = none) ∧
    (∀ s, typeContainerKind (.pyOther s) = none) ∧
    typeContainerKind .pyDict = some .kDict ∧
    typeContainerKind .pyList = some .kList ∧
    typeContainerKind .pySet = some .kSet ∧
    typeContainerKind .pyFrozenset = some .kFrozenset ∧
    typeContainerKind .pyTuple = some .kTuple ∧
    asContainer cfgSub 1 = none ∧
    pretty_text cfgSub 0 = some "[MyList([3]), x]" := by
  refine ⟨?_, fun b s => rfl, fun s => rfl, rfl, rfl, rfl, rfl, rfl, by decide, by decide⟩
  intro cfg id obj h
  unfold asContainer
  rw [h]
  simp only []
  cases typeContainerKind obj.ty <;> rfl

/-- Claim C7 (amended): for a line built by any sequence of appends the
fragment list is exactly the appended texts and the width counter is the
sum of the fragment display widths; the effective width is the counter
minus one when the line is empty or its last fragment ends with a space,
and the counter itself otherwise — so an empty line has effective width
`-1`, not `0` as claimed (see `C7_empty_line_cex`). -/
theorem C7_line_width_invariant (ts : List String) :
    (applyAppends ts).parts = ts ∧
    (applyAppends ts)._cell_len = (ts.map cellLen).sum ∧
    (applyAppends ts).cell_len =
      (if (match ts.getLast? with | some p => endsWithSpace p | none => true) = true
       then ((ts.map cellLen).sum : Int) - 1 else ((ts.map cellLen).sum : Int)) := by
  have key : ∀ us : List String, (applyAppends us).parts = us ∧
      (applyAppends us)._cell_len = (us.map cellLen).sum := by
    intro us
    induction us using List.reverseRecOn with
    | nil => exact ⟨rfl, rfl⟩
    | append_singleton xs x ih =>
      unfold applyAppends at ih ⊢
      rw [List.foldl_append]
      simp only [List.foldl_cons, List.foldl_nil, _Line.append]
      refine ⟨?_, ?_⟩
      · simp [ih.1]
      · simp [ih.2]
  obtain ⟨h1, h2⟩ := key ts
  refine ⟨h1, h2, ?_⟩
  unfold _Line.cell_len
  rw [h1, h2]
  cases hL : ts.getLast? with
  | none => simp
  | some p =>
    by_cases hsp : endsWithSpace p = true
    · simp [hsp]
    · simp [hsp]

theorem C7_empty_line_cex :
    applyAppends [] = emptyLine ∧ emptyLine.cell_len = -1 ∧ emptyLine.cell_len ≠ 0 := by
  refine ⟨rfl, by decide, by decide⟩

/-- Claim C8: a failed attempt retries with the Document reset to a single
empty line and the visited set cleared while the repr cache, the
`line_break` watermark and the repr-computation log survive; consequently
over a whole `pretty_repr` call the computation log never repeats an id —
each leaf repr is computed at most once and every further use within the
call comes from the cache, so all retries render it identically. -/
theorem C8_cache_persistence :
    (∀ cfg root fuel e st (l : Nat) st1,
      run { cfg with expand_level := e } (runFuel cfg) (.jnode root 0) st = .error (l, st1) →
      reprLoop cfg root (fuel + 1) e st =
        reprLoop cfg root fuel (e + 1)
          { lines := [emptyLine], visited := [], cache := st1.cache,
            line_break := st1.line_break, rlog := st1.rlog }) ∧
    (∀ cfg root ls e1 stF, prettyLines cfg root = some (ls, e1, stF) →
      stF.rlog.Nodup ∧ ∀ id ∈ stF.rlog, (stF.cache.lookup id).isSome = true) := by
  constructor
  · intro cfg root fuel e st l st1 h
    simp only [reprLoop]
    rw [h]
  · intro cfg root ls e1 stF h
    exact reprLoop_cacheQ cfg root (runFuel cfg) 0 initState ls e1 stF
      ⟨List.nodup_nil, by intro id hid; cases hid⟩ h

/-- Claim C10: rendering any container with at least two entries in
expanded mode — at any level, nested or root — leaves a line ending with a
trailing space among the finished lines (the `", "` separator appended
after a non-last entry, frozen when the next entry starts a new line);
finished lines persist through every further traversal step, so such a
line reaches the returned Document; in particular, this holds end to end
for a root container rendered at expansion level at least 1, and for
`cfgNest`, whose only multi-entry container is nested below a
single-entry root. -/
theorem C10_expanded_trailing_space :
    (∀ (cfg : Cfg) (fuel node level : Nat) (k : ContKind) (data : ObjData)
        (st st1 : RState),
      asContainer cfg node = some (k, data) →
      2 ≤ (if k = .kDict then (getMapping data).length else (getItems data).length) →
      decide (level < cfg.expand_level) = true →
      st.visited.contains node = false → st.lines ≠ [] →
      run cfg (fuel + 3) (.jnode node level) st = .ok st1 →
      ∃ l ∈ st1.lines.dropLast, endsWithSpace l.text = true) ∧
    (∀ (cfg : Cfg) (fuel : Nat) (job : Job) (st st1 : RState) (l : _Line),
      run cfg fuel job st = .ok st1 →
      l ∈ st.lines.dropLast → l ∈ st1.lines.dropLast) ∧
    (∀ (cfg : Cfg) (root : Nat) (k : ContKind) (data : ObjData),
      asContainer cfg root = some (k, data) →
      2 ≤ (if k = .kDict then (getMapping data).length else (getItems data).length) →
      ∀ ls e1 stF, prettyLines cfg root = some (ls, e1, stF) → 1 ≤ e1 →
      ∃ l ∈ ls.dropLast, endsWithSpace l.text = true) ∧
    (∃ r, prettyLines cfgNest 0 = some r ∧ 2 ≤ r.2.1 ∧
      ∃ l ∈ r.1.dropLast, endsWithSpace l.text = true) := by
  refine ⟨?_, ?_, ?_, ⟨_, rfl, by decide, by decide⟩⟩
  · intro cfg fuel node level k data st st1 hC hcnt hexp hv hne h
    exact run_jnode_trailing cfg fuel node level k data hC hcnt hexp hv hne h
  · intro cfg fuel job st st1 l hrun hl
    obtain ⟨t, ht⟩ := run_ok_dropLast cfg hrun
    rw [ht]
    exact List.mem_append_left _ hl
  · intro cfg root k data hC hcnt ls e1 stF h he1
    exact reprLoop_trailing cfg root k data hC hcnt (runFuel cfg) 0 initState ls e1 stF
      rfl rfl h he1

theorem C10_expanded_trailing_space_witness :
    ∃ r, prettyLines cfgThree 0 = some r ∧
      ∃ l ∈ r.1.dropLast, endsWithSpace l.text = true :=
  ⟨_, rfl, C10_expanded_trailing_space.2.2.1 cfgThree 0 .kList (.items [1, 2, 3]) rfl
    (by decide) _ _ _ rfl (by decide)⟩

theorem C9_no_width_inline (cfg : Cfg) (root : Nat) (hW : cfg.max_width = none) :
    ∃ st1,
      run { cfg with expand_level := 0 } (runFuel cfg) (.jnode root 0) initState = .ok st1 ∧
      prettyLines cfg root = some (st1.lines, 0, st1) ∧
      pretty_text cfg root = some (inlineRender { cfg with expand_level := 0 }
        (runFuel cfg) (.jnode root 0) []) := by
  obtain ⟨st1, hrun, hI⟩ := run_inline { cfg with expand_level := 0 } hW rfl
    (runFuel cfg) (.jnode root 0) initState trivial (by intro h; cases h)
    (by intro p hp; cases hp)
  have hPL : prettyLines cfg root = some (st1.lines, 0, st1) := by
    obtain ⟨g, hg⟩ : ∃ g, runFuel cfg = g + 1 := by
      refine ⟨runFuel cfg - 1, ?_⟩
      have : 0 < runFuel cfg := Nat.pos_pow_of_pos _ (by omega)
      omega
    unfold prettyLines
    rw [hg]
    simp only [reprLoop]
    rw [hrun]
  refine ⟨st1, hrun, hPL, ?_⟩
  unfold pretty_text
  rw [hPL]
  have h6 : st1.lines.map _Line.text =
      ["" ++ inlineRender { cfg with expand_level := 0 } (runFuel cfg) (.jnode root 0) []] :=
    hI.2.2.2.2
  rw [Option.map_some']
  rw [h6]
  rfl

theorem C9_no_width_inline_witness :
    pretty_text cfgNoW 0 = some "\x7ba: 1, b: 2\x7d" := by
  obtain ⟨st1, h1, h2, h3⟩ := C9_no_width_inline cfgNoW 0 rfl
  rw [h3]
  decide

end RichPretty
